import Mathlib

/-!
Verification of the `uniquefile` repository (Go) against its specification.

The development shallowly embeds the relevant source code:
* the Indication buffer with its varuint (LEB128) entry encoding and
  in-place reader (`indication.go`, part of the main package file);
* the composite indicator `Indicators` with first-writer-wins merge;
* the `sync.Pool`-backed Indication cache (`NewIndication` / `PutIndication`);
* the CRC32 / length leaf indicator (`hashAndLengthIndicator.Indicate`);
* the SQL repository (`sqlrepo/repo.go`) over a relational state model;
* the `URI` type with `FromString` / `String` (`uri.go`).

Byte strings are `List Nat` (each element a byte value), Go strings are
`List Char`.  Machine integers are `Nat`; Go's `uint64` arithmetic never
overflows in the modelled paths (lengths are non-negative `int` values),
and where a bound matters (varint decoding) the 10-byte / final-byte
overflow checks of `encoding/binary` are modelled explicitly.
-/

set_option maxRecDepth 100000

namespace Uniquefile

/-! ## Varint encoding (Go `encoding/binary` PutUvarint / ReadUvarint) -/

/-- `binary.PutUvarint`: low 7 bits per byte, continuation bit 0x80,
least significant group first.  The structural fuel bounds the number of
continuation bytes; fuel 9 allows the 10 output bytes that
`MaxVarintLen64` permits, and is never exhausted for Go inputs
(`uint64` values, i.e. `n < 2^64`). -/
def putUvarintGo : Nat → Nat → List Nat
  | 0, n => [n]
  | fuel + 1, n =>
    if n < 128 then [n]
    else (n % 128 + 128) :: putUvarintGo fuel (n / 128)

/-- `binary.PutUvarint` on a `uint64` value. -/
def putUvarint (n : Nat) : List Nat := putUvarintGo 9 n

/-- Outcomes of the indication reader.  `eof`, `unexpectedEOF` and
`overflow` are errors returned by the Go code (`io.EOF`,
`io.ErrUnexpectedEOF`, `binary` overflow).  `sliceOutOfRange` marks the
out-of-range slice `buf[idx : idx+length]` taken by `readSlice` when the
declared length exceeds the remaining bytes: in Go this panics
(beyond capacity) or silently returns stale capacity bytes (between
length and capacity); in neither case is an error value returned.
`fuelExhausted` is an artifact of the structural fuel of `readAllFrom`
and is unreachable for the fuel supplied by `readAll`. -/
inductive RErr
  | eof
  | unexpectedEOF
  | overflow
  | sliceOutOfRange
  | fuelExhausted
  deriving DecidableEq, Repr

/-- `indicationReader.ReadByte`: returns the byte at the cursor, or
`io.EOF` once the cursor reaches the end of the buffer. -/
def readByte (buf : List Nat) (idx : Nat) : Except RErr (Nat × Nat) :=
  if idx < buf.length then .ok (buf.getD idx 0, idx + 1) else .error .eof

/-- Loop of `binary.ReadUvarint`.  `rem` counts the remaining loop
iterations downwards; the Go loop runs `i` from 0 to `MaxVarintLen64 - 1`,
so `rem = 10 - i` and the entry call uses `rem = 10`.  The
`rem = 0` pattern is Go's loop falling off the end (overflow), the
`rem == 0` test inside corresponds to `i == MaxVarintLen64-1`, and the
`rem < 9` test to `i > 0` (EOF after at least one byte becomes
`io.ErrUnexpectedEOF`). -/
def readUvarintLoop (buf : List Nat) : Nat → Nat → Nat → Nat → Except RErr (Nat × Nat)
  | _, _, _, 0 => .error .overflow
  | idx, x, s, rem + 1 =>
    match readByte buf idx with
    | .error e => .error (if rem < 9 ∧ e = .eof then .unexpectedEOF else e)
    | .ok (b, idx1) =>
      if b < 128 then
        if rem = 0 ∧ b > 1 then .error .overflow
        else .ok (x ||| (b <<< s), idx1)
      else readUvarintLoop buf idx1 (x ||| ((b &&& 127) <<< s)) (s + 7) rem

/-- `binary.ReadUvarint` over the indication reader. -/
def readUvarint (buf : List Nat) (idx : Nat) : Except RErr (Nat × Nat) :=
  readUvarintLoop buf idx 0 0 10

/-- `readSlice` inside `indicationReader.Next`: read a varuint length,
then take that many bytes.  The Go code slices
`r.ind.buf[r.idx : r.idx+int(length)]` without a bounds check; when
`idx + length` exceeds the buffer length this is an out-of-range access
(see `RErr.sliceOutOfRange`). -/
def readSlice (buf : List Nat) (idx : Nat) : Except RErr (List Nat × Nat) :=
  match readUvarint buf idx with
  | .error e => .error e
  | .ok (length, idx1) =>
    if idx1 + length ≤ buf.length then
      .ok ((buf.drop idx1).take length, idx1 + length)
    else .error .sliceOutOfRange

/-- `indicationReader.Next`: `io.EOF` exactly when the cursor sits at the
end of the buffer, otherwise a key slice followed by a value slice. -/
def readNext (buf : List Nat) (idx : Nat) :
    Except RErr (List Nat × List Nat × Nat) :=
  if idx = buf.length then .error .eof
  else
    match readSlice buf idx with
    | .error e => .error e
    | .ok (key, idx1) =>
      match readSlice buf idx1 with
      | .error e => .error e
      | .ok (value, idx2) => .ok (key, value, idx2)

/-- Fully iterating a reader from position `idx`: collect `(key, value)`
pairs until `Next` reports `io.EOF`.  Structural fuel; `readAll` supplies
`buf.length + 1`, which suffices because every yielded entry consumes at
least two bytes of the buffer. -/
def readAllFrom (buf : List Nat) : Nat → Nat → Except RErr (List (List Nat × List Nat))
  | _, 0 => .error .fuelExhausted
  | idx, fuel + 1 =>
    match readNext buf idx with
    | .error .eof => .ok []
    | .error e => .error e
    | .ok (key, value, idx1) =>
      match readAllFrom buf idx1 fuel with
      | .error e => .error e
      | .ok rest => .ok ((key, value) :: rest)

/-- Fully iterating a fresh reader over an indication buffer. -/
def readAll (buf : List Nat) : Except RErr (List (List Nat × List Nat)) :=
  readAllFrom buf 0 (buf.length + 1)

/-! ## Indication buffer writes (`Indication.Write`) -/

/-- `writeSlice` inside `Indication.Write`: append
`varuint(len bs) ++ bs`. -/
def writeSlice (buf bs : List Nat) : List Nat :=
  buf ++ putUvarint bs.length ++ bs

/-- `Indication.Write`: append a key slice then a value slice. -/
def writeKV (buf key value : List Nat) : List Nat :=
  writeSlice (writeSlice buf key) value

/-- A sequence of `Indication.Write` calls. -/
def writeKVs (buf : List Nat) (ps : List (List Nat × List Nat)) : List Nat :=
  ps.foldl (fun b p => writeKV b p.1 p.2) buf

/-- The byte encoding of a single entry,
`varuint(len k) ++ k ++ varuint(len v) ++ v`. -/
def encodeKV (p : List Nat × List Nat) : List Nat :=
  putUvarint p.1.length ++ p.1 ++ putUvarint p.2.length ++ p.2

/-- The byte encoding of a list of entries. -/
def encodeKVs (ps : List (List Nat × List Nat)) : List Nat :=
  (ps.map encodeKV).flatten

/-! ## The Indication pool (`indicationCache` / `NewIndication` / `PutIndication`) -/

/-- State of the `sync.Pool` of Indications.  An element is the buffer
of a pooled `*Indication`, or `none` for a typed-nil `*Indication`
pointer.  (`sync.Pool.Put` stores typed nils: its `x == nil` check
compares the `interface{}` value, and an interface holding a typed nil
pointer is not nil.)  `Get` on one P without an intervening GC returns
the most recently Put object, so the pool is modelled as a stack. -/
abbrev IndPool : Type := List (Option (List Nat))

/-- `NewIndication`: `indicationCache.Get()` returns the most recently
pooled object if any, otherwise the `New` function allocates a fresh
empty Indication (`make([]byte, 0, 256)`). -/
def newIndication : IndPool → Option (List Nat) × IndPool
  | [] => (some [], [])
  | i :: rest => (i, rest)

/-- `PutIndication`: `indicationCache.Put(*i)` stores the Indication
back unchanged — there is no `Reset` on either side of the pool — and
sets the pointer of the caller to nil. -/
def putIndication (p : IndPool) (i : Option (List Nat)) : IndPool := i :: p

/-- The per-request result sent on the `results` channel
(`indictionResult`): URI omitted, an optional Indication and an
optional error. -/
structure IndicationResult where
  ind : Option (List Nat)
  err : Option String
  deriving DecidableEq, Repr

/-- `scanReadSeekClosers` when the `open` thunk `req.rsc()` of a request
fails: the inner function has already acquired a fresh Indication, then
returns `nil, err`, and the worker sends `indictionResult{uri, nil, err}`. -/
def scanResultOnOpenFailure (e : String) : IndicationResult :=
  { ind := none, err := some e }

/-- The persist goroutine of `main2` handling one result: when
`res.err != nil` it only logs, and in all cases it then calls
`uniquefile.PutIndication(&res.ind)`. -/
def persistStepOnError (p : IndPool) (res : IndicationResult) : IndPool :=
  putIndication p res.ind

/-! ## Composite indicator (`Indicators`)

`NewIndicators` starts one worker per child; `Indicators.Indicate` gives
lane 0 the tee of the source reader and lanes `1..n-1` pipe readers fed
by the tee, so that every child observes the same byte sequence.  In the
embedding a child indicator is a function from the full byte sequence to
the list of `(key, value)` pairs it writes.  Each lane acquires its
Indication with `NewIndication()` (the `reqs[i].ind = NewIndication()`
loop runs in the calling goroutine, so the pool `Get`s happen in
lane-index order), the child appends its entries after whatever bytes
that Indication already holds — there is no `Reset` on either side of
the pool, so a pooled buffer arrives with its previous contents — and
after the merge `Indicate` returns every written lane buffer to the
pool unreset (`PutIndication(&req.ind)` in lane-index order).  The
model threads the pool state through the call accordingly.  The claims
under proof quantify over sources that both the composite and every
child can read error-free, so children are total functions here. -/

/-- A child indicator: the `(key, value)` pairs it writes into its
Indication for a given source byte sequence. -/
def ChildFn : Type := List Nat → List (List Nat × List Nat)

/-- Go runtime faults of the composite paths: `Indicators.Indicate`
calls `wg1.Add(len(irs.irs) - 1)`, which panics with a negative
WaitGroup counter when there are no children (in particular after
`Close` has set the slices to nil); and when `NewIndication()` returns
the typed-nil `*Indication` a previous `PutIndication` of a nil pointer
stored in the pool, the first `ind.Write` of that lane dereferences the
nil receiver and panics. -/
inductive GoCrash
  | negativeWaitGroup
  | nilIndication
  deriving DecidableEq, Repr

/-- Result of a Go call in the composite model: a normal return value,
a returned `error`, or a runtime panic. -/
inductive GoOutcome (α : Type)
  | ok (a : α)
  | err (e : String)
  | crash (c : GoCrash)
  deriving DecidableEq, Repr

/-- Whether a call returned an error value (as opposed to succeeding or
panicking). -/
def GoOutcome.isErrReturn {α : Type} : GoOutcome α → Bool
  | .err _ => true
  | _ => false

/-- One step of the merge loop in `Indicators.Indicate`: entries of one
lane folded into the `visited` key set and the output Indication of the caller,
skipping keys already seen. -/
def mergeEntries (acc : List (List Nat) × List Nat)
    (es : List (List Nat × List Nat)) : List (List Nat) × List Nat :=
  es.foldl (fun a kv =>
    if kv.1 ∈ a.1 then a else (kv.1 :: a.1, writeKV a.2 kv.1 kv.2)) acc

/-- The merge loop over one lane: read the Indication of the lane back with
a fresh reader and fold its entries.  For lane buffers produced by
`Indication.Write` calls the read never fails; on a read error the Go
code aggregates the error and keeps looping (unreachable here), so the
error branch leaves the accumulator unchanged. -/
def mergeBuf (acc : List (List Nat) × List Nat) (buf : List Nat) :
    List (List Nat) × List Nat :=
  match readAll buf with
  | .error _ => acc
  | .ok es => mergeEntries acc es

/-- The `reqs[i].ind = NewIndication()` loop of `Indicators.Indicate`:
one pool `Get` per lane, in lane-index order.  A `Get` that returns a
pooled typed-nil `*Indication` is reported as `none`: that lane's first
`Write` would panic on the nil receiver. -/
def acquireLanes : IndPool → Nat → Option (List (List Nat) × IndPool)
  | p, 0 => some ([], p)
  | p, n + 1 =>
    match newIndication p with
    | (none, _) => none
    | (some b, p1) =>
      match acquireLanes p1 n with
      | none => none
      | some (bs, p2) => some (b :: bs, p2)

/-- `Indicators.Indicate`: each lane acquires an Indication from the
pool and runs its child over the same byte sequence, the child's writes
appending after whatever bytes the pooled buffer already held; the lane
buffers are then merged in lane order into the Indication of the caller
with first-writer-wins key de-duplication, and finally every written
lane buffer is `PutIndication`ed back — unreset — in lane order.  With
zero children (in particular after `Close`),
`wg1.Add(len(irs.irs) - 1)` panics before any work happens; a typed-nil
`*Indication` from the pool panics on the lane's first `Write`. -/
def indicatorsIndicate (pool : IndPool) (cs : List ChildFn)
    (src ind : List Nat) : GoOutcome (List Nat × IndPool) :=
  if cs.isEmpty then .crash .negativeWaitGroup
  else
    match acquireLanes pool cs.length with
    | none => .crash .nilIndication
    | some (starts, pool1) =>
      let bufs := (cs.zip starts).map fun cb => writeKVs cb.2 (cb.1 src)
      .ok ((bufs.foldl mergeBuf (([] : List (List Nat)), ind)).2,
        bufs.foldl (fun p b => putIndication p (some b)) pool1)

/-- `Indicators.Close`: closes every worker channel and nils the child
slices, leaving a composite with no children. -/
def indicatorsClose (_cs : List ChildFn) : List ChildFn := []

/-! Specification-side description of the first-writer-wins merge. -/

/-- Keep the first occurrence of every key, skipping keys in `seen`. -/
def dedupFirstFrom (seen : List (List Nat)) :
    List (List Nat × List Nat) → List (List Nat × List Nat)
  | [] => []
  | kv :: rest =>
    if kv.1 ∈ seen then dedupFirstFrom seen rest
    else kv :: dedupFirstFrom (kv.1 :: seen) rest

/-- The first-writer-wins merge of a concatenated list of entries. -/
def dedupFirst (es : List (List Nat × List Nat)) : List (List Nat × List Nat) :=
  dedupFirstFrom [] es

/-- The `seen` set after processing `es` starting from `seen`. -/
def seenAfter (seen : List (List Nat)) :
    List (List Nat × List Nat) → List (List Nat)
  | [] => seen
  | kv :: rest =>
    if kv.1 ∈ seen then seenAfter seen rest
    else seenAfter (kv.1 :: seen) rest

/-- The value of the first entry carrying key `k`, if any. -/
def lookupFirst (es : List (List Nat × List Nat)) (k : List Nat) :
    Option (List Nat) :=
  (es.find? (fun e => e.1 = k)).map (fun e => e.2)

/-! ## CRC32 / length indicator (`hashAndLengthIndicator.Indicate`) -/

/-- One bit step of IEEE CRC-32 (reflected polynomial 0xEDB88320). -/
def crcStep (c : Nat) : Nat :=
  if c % 2 = 1 then (c / 2) ^^^ 0xEDB88320 else c / 2

/-- Fold one input byte into the CRC state (eight bit steps). -/
def crc32Update (crc b : Nat) : Nat :=
  (List.range 8).foldl (fun c _ => crcStep c) (crc ^^^ b)

/-- `crc32.NewIEEE` checksum of a byte sequence. -/
def crc32IEEE (bs : List Nat) : Nat :=
  (bs.foldl crc32Update 0xFFFFFFFF) ^^^ 0xFFFFFFFF

/-- Big-endian bytes of a value, `w` bytes wide
(`binary.BigEndian.PutUint64` and the big-endian `Sum` of the hashes). -/
def beBytes : Nat → Nat → List Nat
  | 0, _ => []
  | w + 1, n => (n / 2 ^ (8 * w)) % 256 :: beBytes w n

/-- `digest.Sum` of `crc32.NewIEEE`: appends the 4 big-endian bytes of
the checksum (the Go code hands it a length-0 slice of a 32-byte
scratch array, so exactly these 4 bytes are written). -/
def crc32Sum (bs : List Nat) : List Nat := beBytes 4 (crc32IEEE bs)

/-- The bytes of `lengthIndicatorKey = "length"`. -/
def lengthKey : List Nat := [108, 101, 110, 103, 116, 104]

/-- The bytes of the `"crc32"` key of `CRC32Indicator`. -/
def crc32Key : List Nat := [99, 114, 99, 51, 50]

/-- `hashAndLengthIndicator.Indicate`: read the whole stream through the
hash while counting bytes, then write `("length", be_u64(length))`
followed by `(key, hash.Sum())`. -/
def hashAndLengthIndicate (hashSum : List Nat → List Nat) (key : List Nat)
    (src ind : List Nat) : List Nat :=
  writeKV (writeKV ind lengthKey (beBytes 8 src.length)) key (hashSum src)

/-! ## SQL repository (`sqlrepo/repo.go`) over a relational state

The sqlstream query engine is an external collaborator; its filter,
join, save and delete operations are modelled with the standard
relational semantics over in-memory tables.  `Resource` and
`Indication` rows follow `sqlrepo/models.go` (synthetic int64 keys,
`Resource.Uri` text, `Indication.Key` text, `Indication.Value` bytes);
generated keys are modelled as an increasing counter.  Keys and values
are stored and compared byte-exact (`char(16)` padding semantics of a
particular engine are outside the model). -/

/-- One row of the `Indication` table. -/
structure DbRow where
  indicationId : Nat
  resId : Nat
  key : List Nat
  value : List Nat
  deriving DecidableEq, Repr

/-- The repository state: the `Resource` table (id, uri) and the
`Indication` table, with the next generated ids. -/
structure DbState where
  nextResourceId : Nat
  nextIndicationId : Nat
  resources : List (Nat × List Char)
  indications : List DbRow
  deriving DecidableEq, Repr

/-- Go map assignment `m[k] = v` on an association list: overwrite the
entry if the key is present, otherwise append. -/
def setAssoc (m : List (List Nat × List Nat)) (k v : List Nat) :
    List (List Nat × List Nat) :=
  if m.any (fun e => e.1 == k) then m.map (fun e => if e.1 == k then (k, v) else e)
  else m ++ [(k, v)]

/-- Go map read `v, ok := m[k]`. -/
def lookupAssoc (m : List (List Nat × List Nat)) (k : List Nat) :
    Option (List Nat) :=
  (m.find? (fun e => e.1 == k)).map (fun e => e.2)

/-- Go map `delete(m, k)`. -/
def removeAssoc (m : List (List Nat × List Nat)) (k : List Nat) :
    List (List Nat × List Nat) :=
  m.filter (fun e => ¬(e.1 == k))

/-- Modelled from the spec: `Indication.Lookup` is not under `src/`
(only its callers are); per §4.1 it materializes the Indication "as a
mapping key → value" by iterating the entries, later writes to a key
overwriting earlier ones (Go map assignment), and fails on a read
error. -/
def indicationLookup (indBuf : List Nat) :
    Except RErr (List (List Nat × List Nat)) :=
  match readAll indBuf with
  | .error e => .error e
  | .ok ps => .ok (ps.foldl (fun m p => setAssoc m p.1 p.2) [])

/-- New `Indication` rows for the remaining mapping entries, with
generated ids. -/
def rowsOf (startId rid : Nat) : List (List Nat × List Nat) → List DbRow
  | [] => []
  | p :: rest => ⟨startId, rid, p.1, p.2⟩ :: rowsOf (startId + 1) rid rest

/-- One step of the diff loop of `Repo.SetIndications` over an existing
row of the resource: a row whose `(key, value)` pair is in the mapping
exactly is kept and its key dropped from the mapping; any other row is
appended to the deletion list. -/
def diffStep (acc : List (List Nat × List Nat) × List DbRow) (row : DbRow) :
    List (List Nat × List Nat) × List DbRow :=
  match lookupAssoc acc.1 row.key with
  | some v => if v == row.value then (removeAssoc acc.1 row.key, acc.2)
              else (acc.1, acc.2 ++ [row])
  | none => (acc.1, acc.2 ++ [row])

/-- The diff loop of `Repo.SetIndications`: fold the existing rows,
returning the mapping entries still to insert and the rows to delete. -/
def diffRows (lu : List (List Nat × List Nat)) (rows : List DbRow) :
    List (List Nat × List Nat) × List DbRow :=
  rows.foldl diffStep (lu, ([] : List DbRow))

/-- Recursive restatement of the diff loop used for reasoning: returns
the remaining mapping, the rows marked for deletion, and the rows kept. -/
def diffRec (m : List (List Nat × List Nat)) :
    List DbRow → List (List Nat × List Nat) × List DbRow × List DbRow
  | [] => (m, [], [])
  | row :: rows =>
    match lookupAssoc m row.key with
    | some v =>
      if v == row.value then
        let r := diffRec (removeAssoc m row.key) rows
        (r.1, r.2.1, row :: r.2.2)
      else
        let r := diffRec m rows
        (r.1, row :: r.2.1, r.2.2)
    | none =>
      let r := diffRec m rows
      (r.1, row :: r.2.1, r.2.2)

/-- Distinctness of the keys of an association list. -/
def KeysNodup (m : List (List Nat × List Nat)) : Prop :=
  (m.map Prod.fst).Nodup

/-- Result of one `Repo.SetIndications` call: the new state together
with the rows deleted and the mapping entries inserted by the call. -/
structure SetResult where
  state : DbState
  deleted : List DbRow
  created : List (List Nat × List Nat)
  deriving DecidableEq, Repr

/-- `Repo.SetIndications`: build the lookup of the given Indication,
find the resource by its URI string (inserting a fresh `Resource` row
when absent), diff the existing `Indication` rows of that resource
against the lookup, delete the marked rows and insert the remaining
mapping entries as new rows. -/
def setIndicationsCore (st : DbState) (uri : List Char) (indBuf : List Nat) :
    Except RErr SetResult :=
  match indicationLookup indBuf with
  | .error e => .error e
  | .ok lu =>
    match st.resources.find? (fun r => r.2 == uri) with
    | none =>
      let rid := st.nextResourceId
      .ok { state :=
              { nextResourceId := st.nextResourceId + 1
                nextIndicationId := st.nextIndicationId + lu.length
                resources := st.resources ++ [(rid, uri)]
                indications := st.indications ++ rowsOf st.nextIndicationId rid lu }
            deleted := []
            created := lu }
    | some r =>
      let rid := r.1
      let rows := st.indications.filter (fun row => row.resId == rid)
      let d := diffRows lu rows
      .ok { state :=
              { nextResourceId := st.nextResourceId
                nextIndicationId := st.nextIndicationId + d.1.length
                resources := st.resources
                indications :=
                  (st.indications.filter (fun row =>
                    d.2.all (fun del => ¬(del.indicationId == row.indicationId))))
                  ++ rowsOf st.nextIndicationId rid d.1 }
            deleted := d.2
            created := d.1 }

/-- `Repo.SetIndications`, state only. -/
def setIndications (st : DbState) (uri : List Char) (indBuf : List Nat) :
    Except RErr DbState :=
  (setIndicationsCore st uri indBuf).map (fun r => r.state)

/-- `Repo.Indications`: the query joins every `Indication` row with
every `Resource` row on `ResourceID` only — the named var `resourceUri`
is bound to `u.String()` in the value set but never referenced by any
filter of the query — so the stream yields the whole `Indication` table
(each row joined to its resource), folded into an `IndicationLookup`
map.  The `uri` argument affects nothing but error messages. -/
def getIndicationsLookup (st : DbState) (_uri : List Char) :
    List (List Nat × List Nat) :=
  (st.indications.filter (fun row =>
    st.resources.any (fun r => r.1 == row.resId))).foldl
    (fun lu row => setAssoc lu row.key row.value) []

/-- Modelled from the spec: `IndicationLookup.WriteToIndication` is not
under `src/`; per §4.1/§4.5 it writes every mapping entry into the fresh
Indication returned by `Repo.Indications` (entry order unspecified; the
model writes in association-list order). -/
def getIndications (st : DbState) (uri : List Char) : List Nat :=
  writeKVs [] (getIndicationsLookup st uri)

/-! ## Witness inputs -/

/-- A concrete child indicator writing one entry. -/
def childOne : ChildFn := fun _ => [([97], [1])]

/-- A concrete child indicator writing two entries, the first sharing
the key of `childOne`. -/
def childTwo : ChildFn := fun _ => [([97], [2]), ([98], [3])]

/-- A concrete child indicator for the close scenario. -/
def childThree : ChildFn := fun _ => [([99], [4])]

/-- The bytes of `"hello, world!"`. -/
def helloWorld : List Nat :=
  [104, 101, 108, 108, 111, 44, 32, 119, 111, 114, 108, 100, 33]

/-- Two `SetIndications` calls on an initially empty repository: URI
`u1` gets the single entry `k ↦ [1]`, then URI `u2` gets `k ↦ [2]`. -/
def twoResourceState : Except RErr DbState :=
  match setIndications ⟨1, 1, [], []⟩ ['u', '1'] (writeKV [] [107] [1]) with
  | .error e => .error e
  | .ok st1 => setIndications st1 ['u', '2'] (writeKV [] [107] [2])

/-! ## Resource URI (`URI.FromString` / `URI.FromURL` / `URI.String`)

`URI.FromString` delegates to `net/url.Parse`, an external collaborator.
The parser here models the documented behaviour of `url.Parse` (and the
`Query().Encode()` round trip) restricted to URI strings without
percent-escapes, fragments, user info, ports or multi-parameter
queries — the fragment the canonical strings of the round-trip claim
live in: the scheme is the lowercased maximal run of scheme characters
terminated by a colon, the remainder is cut at the first question mark
into rest/raw query, a leading `//` introduces the host up to the next
slash (which starts the path), otherwise a leading `/` starts a rooted
path and anything else is the opaque part. -/

/-- The URI record of the source (`Scheme`, `Hostname`, `Path`,
`Query`), with Go strings as `List Char`. -/
structure URI where
  scheme : List Char
  hostname : List Char
  path : List Char
  query : List Char
  deriving DecidableEq, Repr

/-- `URI.String`: join of
`scheme ":" [ "//" hostname [ "/" ] ] path [ "?" ] query`, where `//`
appears when the hostname is nonempty, `/` is inserted before a
non-rooted nonempty path when the hostname is nonempty, and `?` is
prepended to a nonempty query that does not already start with one. -/
def uriString (u : URI) : List Char :=
  u.scheme ++ [':']
    ++ (if u.hostname = [] then [] else ['/', '/'])
    ++ u.hostname
    ++ (if u.hostname ≠ [] ∧ u.path ≠ [] ∧ ¬(['/'].isPrefixOf u.path)
        then ['/'] else [])
    ++ u.path
    ++ (if u.query ≠ [] ∧ ¬(['?'].isPrefixOf u.query) then ['?'] else [])
    ++ u.query

/-- The fields of Go `url.URL` used by `URI.FromURL`. -/
structure GoURL where
  scheme : List Char
  opaquePart : List Char
  host : List Char
  path : List Char
  rawQuery : List Char
  deriving DecidableEq, Repr

/-- Split a character list at the first occurrence of `ch`. -/
def splitAtFirst (ch : Char) : List Char → Option (List Char × List Char)
  | [] => none
  | a :: rest =>
    if a = ch then some ([], rest)
    else (splitAtFirst ch rest).map (fun p => (a :: p.1, p.2))

/-- Scheme characters of `url.getScheme`: ALPHA / DIGIT / `+` / `-` / `.`. -/
def isSchemeChar (c : Char) : Bool :=
  c.isAlpha || c.isDigit || c = '+' || c = '-' || c = '.'

/-- `url.getScheme`, modelled: the maximal leading run of scheme
characters followed by a colon is the (lowercased) scheme; otherwise
there is no scheme.  (Go additionally requires the first character to
be a letter and rejects an empty scheme; canonical inputs satisfy
both.) -/
def getScheme (s : List Char) : List Char × List Char :=
  match s.dropWhile isSchemeChar with
  | ':' :: rest => ((s.takeWhile isSchemeChar).map Char.toLower, rest)
  | _ => ([], s)

/-- Cut at the first `?`: the remainder and the raw query. -/
def cutQuery (s : List Char) : List Char × List Char :=
  match splitAtFirst '?' s with
  | none => (s, [])
  | some (a, b) => (a, b)

/-- Split the part after `//` into host and path: the path starts at
the first slash and keeps it. -/
def splitAuthority (s : List Char) : List Char × List Char :=
  match splitAtFirst '/' s with
  | none => (s, [])
  | some (h, rest) => (h, '/' :: rest)

/-- The modelled `url.Parse` on the escape-free fragment. -/
def parseURL (s : List Char) : GoURL :=
  let sr := getScheme s
  let rq := cutQuery sr.2
  if ['/', '/'].isPrefixOf rq.1 then
    let hp := splitAuthority (rq.1.drop 2)
    ⟨sr.1, [], hp.1, hp.2, rq.2⟩
  else if ['/'].isPrefixOf rq.1 then
    ⟨sr.1, [], [], rq.1, rq.2⟩
  else
    ⟨sr.1, rq.1, [], [], rq.2⟩

/-- Split on `&` (the loop of `url.ParseQuery`). -/
def splitOnAmpAux (acc : List Char) : List Char → List (List Char)
  | [] => [acc]
  | c :: rest =>
    if c = '&' then acc :: splitOnAmpAux [] rest
    else splitOnAmpAux (acc ++ [c]) rest

/-- `url.ParseQuery`, modelled for escape-free queries: split on `&`,
cut each part at the first `=`, skip empty keys. -/
def parseQueryPairs (q : List Char) : List (List Char × List Char) :=
  if q = [] then []
  else (splitOnAmpAux [] q).filterMap (fun part =>
    match splitAtFirst '=' part with
    | some kv => if kv.1 = [] then none else some kv
    | none => if part = [] then none else some (part, ([] : List Char)))

/-- Lexicographic comparison of character lists (`sort.Strings`). -/
def charListLe : List Char → List Char → Bool
  | [], _ => true
  | _ :: _, [] => false
  | x :: xs, y :: ys => if x = y then charListLe xs ys else decide (x < y)

/-- Insertion into a key-sorted pair list. -/
def insertSorted (x : List Char × List Char) :
    List (List Char × List Char) → List (List Char × List Char)
  | [] => [x]
  | y :: ys => if charListLe x.1 y.1 then x :: y :: ys else y :: insertSorted x ys

/-- Sorting by key (`url.Values.Encode` sorts the keys). -/
def sortPairs : List (List Char × List Char) → List (List Char × List Char)
  | [] => []
  | x :: xs => insertSorted x (sortPairs xs)

/-- Join query parts with `&`. -/
def joinAmp : List (List Char) → List Char
  | [] => []
  | [x] => x
  | x :: xs => x ++ '&' :: joinAmp xs

/-- `url.Values.Encode` on escape-free pairs: `k=v` joined by `&` in
key-sorted order. -/
def encodeQuery (ps : List (List Char × List Char)) : List Char :=
  joinAmp ((sortPairs ps).map (fun p => p.1 ++ '=' :: p.2))

/-- `ur.Query().Encode()` as used by `URI.FromURL`. -/
def queryEncodeParse (q : List Char) : List Char :=
  encodeQuery (parseQueryPairs q)

/-- The default scheme `file`. -/
def fileSchemeChars : List Char := ['f', 'i', 'l', 'e']

/-- `URI.FromURL`: default the scheme to `file`, take the host, take
the opaque part as path when present (else the escaped path, which on
the escape-free fragment is the path itself), and re-encode the query. -/
def uriFromURL (g : GoURL) : URI :=
  { scheme := if g.scheme = [] then fileSchemeChars else g.scheme
    hostname := g.host
    path := if g.opaquePart ≠ [] then g.opaquePart else g.path
    query := queryEncodeParse g.rawQuery }

/-- `URI.FromString` (errors of `url.Parse` do not arise on the
modelled fragment). -/
def uriFromString (s : List Char) : URI := uriFromURL (parseURL s)

/-- Lowercase ASCII letter. -/
def lowerAlpha (c : Char) : Bool := 'a' ≤ c && c ≤ 'z'

/-- Characters allowed in a canonical hostname. -/
def hostChar (c : Char) : Bool :=
  lowerAlpha c || c.isDigit || c = '.' || c = '-'

/-- Characters allowed in a canonical path (unreserved plus slash:
neither escaped by `EscapedPath` nor special to the parser). -/
def pathChar (c : Char) : Bool :=
  c.isAlpha || c.isDigit || c = '/' || c = '.' || c = '-' || c = '_' || c = '~'

/-- Characters allowed in canonical query keys and values (invariant
under `QueryEscape`). -/
def qChar (c : Char) : Bool := c.isAlpha || c.isDigit

/-- Canonical URI components: nonempty lowercase scheme, restricted
host/path alphabets, a path that is rooted (or empty) when a host is
present and that cannot be mistaken for an authority when none is, and
an empty or single `key=value` query. -/
def CanonicalParts (sch host path q : List Char) : Prop :=
  sch ≠ [] ∧ (∀ c ∈ sch, lowerAlpha c)
    ∧ (∀ c ∈ host, hostChar c)
    ∧ (∀ c ∈ path, pathChar c)
    ∧ (host = [] → ¬(['/', '/'].isPrefixOf path))
    ∧ (host ≠ [] → path = [] ∨ ['/'].isPrefixOf path)
    ∧ (q = [] ∨ ∃ k v, k ≠ [] ∧ (∀ c ∈ k, qChar c) ∧ (∀ c ∈ v, qChar c)
        ∧ q = k ++ '=' :: v)

/-- A canonical URI string is the canonical stringification of
canonical components. -/
def CanonicalURIString (s : List Char) : Prop :=
  ∃ sch host path q, CanonicalParts sch host path q
    ∧ s = uriString ⟨sch, host, path, q⟩

/-! ## Lemmas, claim theorems and witnesses -/

/-! ### Round-trip lemmas for the varint layer -/

theorem lor_low_eq_add (s : Nat) :
    ∀ x m : Nat, x < 2 ^ s → x ||| (m * 2 ^ s) = x + m * 2 ^ s := by
  induction s with
  | zero =>
    intro x m hx
    interval_cases x
    simp [Nat.zero_or]
  | succ s ih =>
    intro x m hx
    have hb : x % 2 = 0 ∨ x % 2 = 1 := by omega
    have hdecomp : x = 2 * (x / 2) + x % 2 := by omega
    have hx2 : x / 2 < 2 ^ s := by
      have : 2 ^ (s + 1) = 2 * 2 ^ s := by ring
      omega
    have hm : m * 2 ^ (s + 1) = 2 * (m * 2 ^ s) := by ring
    rcases hb with hb | hb
    · have h1 : x = Nat.bit false (x / 2) := by simp [Nat.bit]; omega
      have h2 : m * 2 ^ (s + 1) = Nat.bit false (m * 2 ^ s) := by simp [Nat.bit]; omega
      rw [h1, h2, Nat.lor_bit, ih _ _ hx2]
      simp [Nat.bit]
      omega
    · have h1 : x = Nat.bit true (x / 2) := by simp [Nat.bit]; omega
      have h2 : m * 2 ^ (s + 1) = Nat.bit false (m * 2 ^ s) := by simp [Nat.bit]; omega
      rw [h1, h2, Nat.lor_bit, ih _ _ hx2]
      simp [Nat.bit]
      omega

theorem land_pow_sub_one (a k : Nat) : a &&& (2 ^ k - 1) = a % 2 ^ k := by
  apply Nat.eq_of_testBit_eq
  intro i
  rw [Nat.testBit_land, Nat.testBit_two_pow_sub_one, Nat.testBit_mod_two_pow, Bool.and_comm]

theorem readByte_append (pre : List Nat) (b : Nat) (post : List Nat) :
    readByte (pre ++ b :: post) pre.length = .ok (b, pre.length + 1) := by
  have hlt : pre.length < (pre ++ b :: post).length := by
    simp
  have hget : (pre ++ b :: post).getD pre.length 0 = b := by
    rw [List.getD_eq_getElem?_getD, List.getElem?_append_right (le_refl pre.length)]
    simp
  unfold readByte
  rw [if_pos hlt, hget]

theorem readUvarintLoop_putUvarintGo :
    ∀ (rem n x s : Nat) (pre post : List Nat), x < 2 ^ s → n < 2 ^ (7 * rem) * 2 →
      readUvarintLoop (pre ++ putUvarintGo rem n ++ post) pre.length x s (rem + 1)
        = .ok (x + n * 2 ^ s, pre.length + (putUvarintGo rem n).length) := by
  intro rem
  induction rem with
  | zero =>
    intro n x s pre post hx hn
    have hn1 : n ≤ 1 := by
      have h2 : n < 2 := by simpa using hn
      omega
    have hb : n < 128 := by omega
    have hng : ¬n > 1 := by omega
    rw [show putUvarintGo 0 n = [n] from rfl,
        show pre ++ [n] ++ post = pre ++ n :: post by simp,
        readUvarintLoop.eq_2]
    simp only [readByte_append]
    rw [Nat.shiftLeft_eq, lor_low_eq_add s x n hx]
    simp [hb, hng]
  | succ rem ih =>
    intro n x s pre post hx hn
    by_cases hb : n < 128
    · rw [show putUvarintGo (rem + 1) n = [n] by simp [putUvarintGo, hb],
          show pre ++ [n] ++ post = pre ++ n :: post by simp,
          readUvarintLoop.eq_2]
      simp only [readByte_append]
      rw [Nat.shiftLeft_eq, lor_low_eq_add s x n hx]
      simp [hb, putUvarintGo]
    · have hbyte : ¬(n % 128 + 128 < 128) := by omega
      rw [show putUvarintGo (rem + 1) n = (n % 128 + 128) :: putUvarintGo rem (n / 128) by
            simp [putUvarintGo, hb],
          show pre ++ ((n % 128 + 128) :: putUvarintGo rem (n / 128)) ++ post
            = pre ++ (n % 128 + 128) :: (putUvarintGo rem (n / 128) ++ post) by simp,
          readUvarintLoop.eq_2]
      simp only [readByte_append]
      rw [if_neg hbyte]
      have hand : n % 128 + 128 &&& 127 = n % 128 := by
        have h7 := land_pow_sub_one (n % 128 + 128) 7
        norm_num at h7
        rw [h7]
      rw [hand, Nat.shiftLeft_eq, lor_low_eq_add s x (n % 128) hx]
      have hx7 : x + n % 128 * 2 ^ s < 2 ^ (s + 7) := by
        have h7 : 2 ^ (s + 7) = 2 ^ s * 128 := by rw [pow_add]; norm_num
        have hm : n % 128 ≤ 127 := by omega
        have h3 : n % 128 * 2 ^ s ≤ 127 * 2 ^ s := Nat.mul_le_mul_right _ hm
        nlinarith [Nat.pos_pow_of_pos s (show 0 < 2 by norm_num)]
      have hdiv : n / 128 < 2 ^ (7 * rem) * 2 := by
        have h7 : 2 ^ (7 * (rem + 1)) = 2 ^ (7 * rem) * 128 := by
          rw [show 7 * (rem + 1) = 7 * rem + 7 by ring, pow_add]
          norm_num
        omega
      have hih := ih (n / 128) (x + n % 128 * 2 ^ s) (s + 7)
        (pre ++ [n % 128 + 128]) post hx7 hdiv
      rw [show (pre ++ [n % 128 + 128]) ++ putUvarintGo rem (n / 128) ++ post
            = pre ++ (n % 128 + 128) :: (putUvarintGo rem (n / 128) ++ post) by simp] at hih
      rw [show (pre ++ [n % 128 + 128]).length = pre.length + 1 by simp] at hih
      rw [hih]
      have hval : x + n % 128 * 2 ^ s + n / 128 * 2 ^ (s + 7) = x + n * 2 ^ s := by
        have h7 : 2 ^ (s + 7) = 2 ^ s * 128 := by rw [pow_add]; norm_num
        have hdm : 128 * (n / 128) + n % 128 = n := Nat.div_add_mod n 128
        calc x + n % 128 * 2 ^ s + n / 128 * 2 ^ (s + 7)
            = x + (128 * (n / 128) + n % 128) * 2 ^ s := by rw [h7]; ring
          _ = x + n * 2 ^ s := by rw [hdm]
      have hlen : pre.length + 1 + (putUvarintGo rem (n / 128)).length
          = pre.length + ((n % 128 + 128) :: putUvarintGo rem (n / 128)).length := by
        simp
        omega
      rw [hval, hlen]

theorem putUvarintGo_length_pos (fuel n : Nat) : 0 < (putUvarintGo fuel n).length := by
  cases fuel with
  | zero => simp [putUvarintGo]
  | succ f => by_cases h : n < 128 <;> simp [putUvarintGo, h]

theorem putUvarint_length_pos (n : Nat) : 0 < (putUvarint n).length :=
  putUvarintGo_length_pos 9 n

theorem readUvarint_encode (n : Nat) (hn : n < 2 ^ 64) (pre post : List Nat) :
    readUvarint (pre ++ putUvarint n ++ post) pre.length
      = .ok (n, pre.length + (putUvarint n).length) := by
  have hbound : n < 2 ^ (7 * 9) * 2 := by
    have h64 : (2 : Nat) ^ 64 = 2 ^ (7 * 9) * 2 := by norm_num
    omega
  have h := readUvarintLoop_putUvarintGo 9 n 0 0 pre post (by norm_num) hbound
  simpa [readUvarint, putUvarint] using h

theorem readSlice_encode (bs : List Nat) (hbs : bs.length < 2 ^ 64) (pre post : List Nat) :
    readSlice (pre ++ (putUvarint bs.length ++ bs) ++ post) pre.length
      = .ok (bs, pre.length + (putUvarint bs.length).length + bs.length) := by
  have hassoc : pre ++ (putUvarint bs.length ++ bs) ++ post
      = pre ++ putUvarint bs.length ++ (bs ++ post) := by simp
  rw [hassoc]
  unfold readSlice
  simp only [readUvarint_encode bs.length hbs pre (bs ++ post)]
  have hle : pre.length + (putUvarint bs.length).length + bs.length
      ≤ (pre ++ putUvarint bs.length ++ (bs ++ post)).length := by
    simp
    omega
  rw [if_pos hle]
  have h1 : pre.length + (putUvarint bs.length).length
      = (pre ++ putUvarint bs.length).length := by simp
  rw [h1, List.drop_left, List.take_left]

theorem readNext_encode (k v pre post : List Nat)
    (hk : k.length < 2 ^ 64) (hv : v.length < 2 ^ 64) :
    readNext (pre ++ encodeKV (k, v) ++ post) pre.length
      = .ok (k, v, pre.length + (encodeKV (k, v)).length) := by
  have hbuf : pre ++ encodeKV (k, v) ++ post
      = pre ++ (putUvarint k.length ++ k) ++ (putUvarint v.length ++ v ++ post) := by
    simp [encodeKV]
  have hkey := readSlice_encode k hk pre (putUvarint v.length ++ v ++ post)
  have hval := readSlice_encode v hv (pre ++ putUvarint k.length ++ k) post
  have hidx : (pre ++ putUvarint k.length ++ k).length
      = pre.length + (putUvarint k.length).length + k.length := by
    rw [List.length_append, List.length_append]
  rw [hidx] at hval
  rw [show (pre ++ putUvarint k.length ++ k) ++ (putUvarint v.length ++ v) ++ post
        = pre ++ (putUvarint k.length ++ k) ++ (putUvarint v.length ++ v ++ post) by simp] at hval
  unfold readNext
  rw [hbuf]
  have hne : pre.length
      ≠ (pre ++ (putUvarint k.length ++ k) ++ (putUvarint v.length ++ v ++ post)).length := by
    have h1 := putUvarint_length_pos k.length
    simp only [List.length_append]
    omega
  rw [if_neg hne]
  simp only [hkey, hval]
  simp only [encodeKV, List.length_append, Except.ok.injEq, Prod.mk.injEq, true_and]
  omega

theorem readNext_atEnd (buf : List Nat) : readNext buf buf.length = .error .eof := by
  unfold readNext
  rw [if_pos rfl]

theorem readAllFrom_atEnd (buf : List Nat) (f : Nat) :
    readAllFrom buf buf.length (f + 1) = .ok [] := by
  rw [readAllFrom.eq_2, readNext_atEnd]

theorem readAllFrom_encode :
    ∀ (ps : List (List Nat × List Nat)) (pre : List Nat) (fuel : Nat),
      ps.length + 1 ≤ fuel →
      (∀ p ∈ ps, p.1.length < 2 ^ 64 ∧ p.2.length < 2 ^ 64) →
      readAllFrom (pre ++ encodeKVs ps) pre.length fuel = .ok ps := by
  intro ps
  induction ps with
  | nil =>
    intro pre fuel hfuel hlen
    obtain ⟨f, rfl⟩ : ∃ f, fuel = f + 1 := ⟨fuel - 1, by omega⟩
    rw [show pre ++ encodeKVs [] = pre by simp [encodeKVs]]
    have h := readAllFrom_atEnd pre f
    exact h
  | cons p rest ih =>
    intro pre fuel hfuel hlen
    obtain ⟨k, v⟩ := p
    obtain ⟨f, rfl⟩ : ∃ f, fuel = f + 1 := ⟨fuel - 1, by omega⟩
    have hkv := hlen (k, v) (by simp)
    have hbuf : pre ++ encodeKVs ((k, v) :: rest)
        = pre ++ encodeKV (k, v) ++ encodeKVs rest := by
      simp [encodeKVs]
    rw [hbuf, readAllFrom.eq_2]
    have hnext := readNext_encode k v pre (encodeKVs rest) hkv.1 hkv.2
    simp only [hnext]
    have hpre2 : pre.length + (encodeKV (k, v)).length = (pre ++ encodeKV (k, v)).length := by
      rw [List.length_append]
    rw [hpre2]
    have hih := ih (pre ++ encodeKV (k, v)) f (by simpa using hfuel)
      (fun q hq => hlen q (by simp [hq]))
    simp only [hih]

theorem writeKVs_eq_append :
    ∀ (ps : List (List Nat × List Nat)) (buf : List Nat),
      writeKVs buf ps = buf ++ encodeKVs ps := by
  intro ps
  induction ps with
  | nil => intro buf; simp [writeKVs, encodeKVs]
  | cons p rest ih =>
    intro buf
    obtain ⟨k, v⟩ := p
    rw [show writeKVs buf ((k, v) :: rest) = writeKVs (writeKV buf k v) rest from rfl, ih]
    simp [writeKV, writeSlice, encodeKVs, encodeKV]

theorem encodeKVs_length_ge (ps : List (List Nat × List Nat)) :
    ps.length ≤ (encodeKVs ps).length := by
  induction ps with
  | nil => simp [encodeKVs]
  | cons p rest ih =>
    obtain ⟨k, v⟩ := p
    have h1 := putUvarint_length_pos k.length
    have hbuf : encodeKVs ((k, v) :: rest) = encodeKV (k, v) ++ encodeKVs rest := by
      simp [encodeKVs]
    rw [hbuf, List.length_append]
    have h2 : 1 ≤ (encodeKV (k, v)).length := by
      simp only [encodeKV, List.length_append]
      omega
    simp only [List.length_cons]
    omega

/-- Round trip at the top level: fully reading a buffer produced by a
sequence of `Indication.Write` calls on an empty Indication yields
exactly the written pairs. -/
theorem readAll_writeKVs (ps : List (List Nat × List Nat))
    (hlen : ∀ p ∈ ps, p.1.length < 2 ^ 64 ∧ p.2.length < 2 ^ 64) :
    readAll (writeKVs [] ps) = .ok ps := by
  rw [readAll, writeKVs_eq_append]
  have hfuel : ps.length + 1 ≤ (([] : List Nat) ++ encodeKVs ps).length + 1 := by
    have := encodeKVs_length_ge ps
    simp
    omega
  have h := readAllFrom_encode ps [] ((([] : List Nat) ++ encodeKVs ps).length + 1) hfuel hlen
  simpa using h

theorem mergeEntries_spec :
    ∀ (es : List (List Nat × List Nat)) (seen : List (List Nat)) (buf : List Nat),
      mergeEntries (seen, buf) es
        = (seenAfter seen es, writeKVs buf (dedupFirstFrom seen es)) := by
  intro es
  induction es with
  | nil => intro seen buf; simp [mergeEntries, seenAfter, dedupFirstFrom, writeKVs]
  | cons kv rest ih =>
    intro seen buf
    by_cases h : kv.1 ∈ seen
    · rw [show mergeEntries (seen, buf) (kv :: rest) = mergeEntries (seen, buf) rest by
        simp [mergeEntries, h]]
      rw [ih seen buf]
      simp [seenAfter, dedupFirstFrom, h]
    · rw [show mergeEntries (seen, buf) (kv :: rest)
          = mergeEntries (kv.1 :: seen, writeKV buf kv.1 kv.2) rest by
        simp [mergeEntries, h]]
      rw [ih (kv.1 :: seen) (writeKV buf kv.1 kv.2)]
      simp only [seenAfter, dedupFirstFrom, h, if_neg, not_false_iff]
      rw [show writeKVs (writeKV buf kv.1 kv.2) (dedupFirstFrom (kv.1 :: seen) rest)
            = writeKVs buf (kv :: dedupFirstFrom (kv.1 :: seen) rest) from rfl]

theorem dedupFirstFrom_append (es fs : List (List Nat × List Nat)) :
    ∀ seen, dedupFirstFrom seen (es ++ fs)
      = dedupFirstFrom seen es ++ dedupFirstFrom (seenAfter seen es) fs := by
  induction es with
  | nil => intro seen; simp [dedupFirstFrom, seenAfter]
  | cons kv rest ih =>
    intro seen
    by_cases h : kv.1 ∈ seen <;> simp [dedupFirstFrom, seenAfter, h, ih]

theorem seenAfter_append (es fs : List (List Nat × List Nat)) :
    ∀ seen, seenAfter seen (es ++ fs) = seenAfter (seenAfter seen es) fs := by
  induction es with
  | nil => intro seen; simp [seenAfter]
  | cons kv rest ih =>
    intro seen
    by_cases h : kv.1 ∈ seen <;> simp [seenAfter, h, ih]

theorem mergeBuf_fold :
    ∀ (rs : List (List (List Nat × List Nat))) (seen : List (List Nat)) (buf : List Nat),
      (∀ es ∈ rs, ∀ p ∈ es, p.1.length < 2 ^ 64 ∧ p.2.length < 2 ^ 64) →
      (rs.map (fun es => writeKVs [] es)).foldl mergeBuf (seen, buf)
        = (seenAfter seen rs.flatten, writeKVs buf (dedupFirstFrom seen rs.flatten)) := by
  intro rs
  induction rs with
  | nil =>
    intro seen buf _
    simp [seenAfter, dedupFirstFrom, writeKVs]
  | cons es rest ih =>
    intro seen buf hlen
    have hstep : mergeBuf (seen, buf) (writeKVs [] es)
        = (seenAfter seen es, writeKVs buf (dedupFirstFrom seen es)) := by
      rw [mergeBuf, readAll_writeKVs es (fun p hp => hlen es (by simp) p hp)]
      exact mergeEntries_spec es seen buf
    rw [show ((es :: rest).map fun es => writeKVs [] es)
          = writeKVs [] es :: (rest.map fun es => writeKVs [] es) from rfl,
        List.foldl_cons, hstep,
        ih (seenAfter seen es) (writeKVs buf (dedupFirstFrom seen es))
          (fun fs hfs p hp => hlen fs (by simp [hfs]) p hp)]
    rw [show (es :: rest).flatten = es ++ rest.flatten from rfl,
        seenAfter_append, dedupFirstFrom_append]
    simp [writeKVs, List.foldl_append]

theorem acquireLanes_clean :
    ∀ (n : Nat) (p : IndPool), (∀ x ∈ p, x = some []) →
      acquireLanes p n = some (List.replicate n [], p.drop n)
  | 0, _, _ => rfl
  | n + 1, [], _ => by
    rw [acquireLanes.eq_2,
        show newIndication [] = (some [], []) from rfl]
    show (match acquireLanes [] n with
      | none => none
      | some (bs, p2) => some (([] : List Nat) :: bs, p2))
        = some (List.replicate (n + 1) [], List.drop (n + 1) ([] : IndPool))
    rw [acquireLanes_clean n [] (by simp)]
    simp [List.replicate_succ]
  | n + 1, a :: rest, hp => by
    have ha : a = some [] := hp a (by simp)
    subst ha
    rw [acquireLanes.eq_2,
        show newIndication (some [] :: rest) = (some [], rest) from rfl]
    show (match acquireLanes rest n with
      | none => none
      | some (bs, p2) => some (([] : List Nat) :: bs, p2))
        = some (List.replicate (n + 1) [], List.drop (n + 1) (some [] :: rest))
    rw [acquireLanes_clean n rest (fun x hx => hp x (by simp [hx]))]
    rfl

theorem zip_replicate_writeKVs (src : List Nat) :
    ∀ cs : List ChildFn,
      ((cs.zip (List.replicate cs.length ([] : List Nat))).map
          fun cb => writeKVs cb.2 (cb.1 src))
        = cs.map fun c => writeKVs [] (c src)
  | [] => rfl
  | c :: cs => by
    simp only [List.length_cons, List.replicate_succ, List.zip_cons_cons,
      List.map_cons]
    rw [zip_replicate_writeKVs src cs]

theorem mem_keys_dedupFirstFrom (k : List Nat) :
    ∀ (es : List (List Nat × List Nat)) (seen : List (List Nat)),
      (∃ e ∈ dedupFirstFrom seen es, e.1 = k) ↔ (k ∉ seen ∧ ∃ e ∈ es, e.1 = k) := by
  intro es
  induction es with
  | nil => intro seen; simp [dedupFirstFrom]
  | cons kv rest ih =>
    intro seen
    by_cases h : kv.1 ∈ seen
    · rw [show dedupFirstFrom seen (kv :: rest) = dedupFirstFrom seen rest by
        simp [dedupFirstFrom, h]]
      rw [ih seen]
      constructor
      · rintro ⟨hk, e, he, rfl⟩
        exact ⟨hk, e, by simp [he], rfl⟩
      · rintro ⟨hk, e, he, rfl⟩
        rcases List.mem_cons.mp he with rfl | he2
        · exact absurd h hk
        · exact ⟨hk, e, he2, rfl⟩
    · rw [show dedupFirstFrom seen (kv :: rest)
          = kv :: dedupFirstFrom (kv.1 :: seen) rest by simp [dedupFirstFrom, h]]
      constructor
      · rintro ⟨e, he, rfl⟩
        rcases List.mem_cons.mp he with rfl | he2
        · exact ⟨h, e, by simp, rfl⟩
        · have h2 := (ih (kv.1 :: seen)).mp ⟨e, he2, rfl⟩
          refine ⟨fun hk => h2.1 (by simp [hk]), ?_⟩
          obtain ⟨_, e2, he3, hke⟩ := h2
          exact ⟨e2, by simp [he3], hke⟩
      · rintro ⟨hk, e, he, rfl⟩
        rcases List.mem_cons.mp he with rfl | he2
        · exact ⟨e, by simp, rfl⟩
        · by_cases hek : e.1 = kv.1
          · exact ⟨kv, by simp, hek.symm ▸ rfl⟩
          · have h2 := (ih (kv.1 :: seen)).mpr
              ⟨by simp [hek, hk], e, he2, rfl⟩
            obtain ⟨e2, he3, hke⟩ := h2
            exact ⟨e2, by simp [he3], hke⟩

theorem lookupFirst_dedupFirstFrom (k : List Nat) :
    ∀ (es : List (List Nat × List Nat)) (seen : List (List Nat)), k ∉ seen →
      lookupFirst (dedupFirstFrom seen es) k = lookupFirst es k := by
  intro es
  induction es with
  | nil => intro seen _; simp [dedupFirstFrom]
  | cons kv rest ih =>
    intro seen hk
    by_cases h : kv.1 ∈ seen
    · have hne : ¬(kv.1 = k) := fun he => hk (he ▸ h)
      rw [show dedupFirstFrom seen (kv :: rest) = dedupFirstFrom seen rest by
        simp [dedupFirstFrom, h]]
      rw [ih seen hk]
      simp [lookupFirst, List.find?, hne]
    · rw [show dedupFirstFrom seen (kv :: rest)
          = kv :: dedupFirstFrom (kv.1 :: seen) rest by simp [dedupFirstFrom, h]]
      by_cases hek : kv.1 = k
      · simp [lookupFirst, List.find?, hek]
      · have hke : ¬k = kv.1 := fun h1 => hek h1.symm
        have hk2 : k ∉ kv.1 :: seen := by
          intro hmem
          rcases List.mem_cons.mp hmem with h1 | h1
          · exact hek h1.symm
          · exact hk h1
        have h3 := ih (kv.1 :: seen) hk2
        simp only [lookupFirst, List.find?, hek] at h3 ⊢
        simpa [hek] using h3

/-! ## Theorems for the claims -/

theorem beBytes_length (w n : Nat) : (beBytes w n).length = w := by
  induction w generalizing n with
  | zero => simp [beBytes]
  | succ w ih => simp [beBytes, ih]

/-- C3: a buffer produced by a sequence of `Indication.Write` calls
reads back, via a fresh reader iterated to `io.EOF`, as exactly the
written `(key, value)` pairs in order; and re-concatenating
`varuint(len k) ++ k ++ varuint(len v) ++ v` over those pairs
reproduces the buffer exactly.  (Lengths are Go `int` values, hence
below `2^64`.) -/
theorem indication_write_read_roundtrip (b : List Nat)
    (ps : List (List Nat × List Nat)) (hb : b = writeKVs [] ps)
    (hlen : ∀ p ∈ ps, p.1.length < 2 ^ 64 ∧ p.2.length < 2 ^ 64) :
    readAll b = .ok ps ∧ encodeKVs ps = b := by
  subst hb
  refine ⟨readAll_writeKVs ps hlen, ?_⟩
  rw [writeKVs_eq_append]
  simp

theorem indication_write_read_roundtrip_witness :
    readAll (writeKVs [] [([104, 105], [1, 2, 3]), ([], [])])
        = .ok [([104, 105], [1, 2, 3]), ([], [])]
      ∧ encodeKVs [([104, 105], [1, 2, 3]), ([], [])]
        = writeKVs [] [([104, 105], [1, 2, 3]), ([], [])] :=
  indication_write_read_roundtrip _ [([104, 105], [1, 2, 3]), ([], [])] rfl
    (by decide)

/-- C5 (the code, evaluated at the failing input): on the truncated
buffer `[2]` — a varuint declaring a 2-byte key with no bytes left —
`Next` does not return an error value: it evaluates the out-of-range
slice `buf[1:3]`, which in Go panics (beyond capacity) or yields stale
capacity bytes, never a malformed-indication error. -/
theorem readNext_truncated_slices_out_of_range :
    readNext [2] 0 = .error .sliceOutOfRange
      ∧ readNext [2, 65] 0 = .error .sliceOutOfRange := by
  constructor <;> rfl

/-- C6: a `hashAndLengthIndicator` that completes writes exactly the two
entries `("length", be_u64(byte count))` then `(key, hash sum)`, in this
order; the CRC32 sum is always exactly 4 bytes, and on the 13-byte input
`"hello, world!"` it is `58 98 8D 13`. -/
theorem hashAndLength_two_entries (hashSum : List Nat → List Nat)
    (key src : List Nat) (hk : key.length < 2 ^ 64)
    (hh : (hashSum src).length < 2 ^ 64) :
    readAll (hashAndLengthIndicate hashSum key src [])
        = .ok [(lengthKey, beBytes 8 src.length), (key, hashSum src)]
      ∧ (∀ bs : List Nat, (crc32Sum bs).length = 4)
      ∧ crc32Sum helloWorld = [88, 152, 141, 19] := by
  refine ⟨?_, fun bs => by rw [crc32Sum, beBytes_length], by decide⟩
  rw [show hashAndLengthIndicate hashSum key src []
        = writeKVs [] [(lengthKey, beBytes 8 src.length), (key, hashSum src)] from rfl]
  apply readAll_writeKVs
  intro p hp
  rcases List.mem_cons.mp hp with rfl | hp2
  · refine ⟨?_, ?_⟩
    · show lengthKey.length < 2 ^ 64
      norm_num [lengthKey]
    · show (beBytes 8 src.length).length < 2 ^ 64
      rw [beBytes_length]
      norm_num
  · rcases List.mem_singleton.mp hp2 with rfl
    exact ⟨hk, hh⟩

theorem hashAndLength_two_entries_witness :
    readAll (hashAndLengthIndicate crc32Sum crc32Key helloWorld [])
        = .ok [(lengthKey, beBytes 8 helloWorld.length),
               (crc32Key, crc32Sum helloWorld)]
      ∧ (∀ bs : List Nat, (crc32Sum bs).length = 4)
      ∧ crc32Sum helloWorld = [88, 152, 141, 19] :=
  hashAndLength_two_entries crc32Sum crc32Key helloWorld (by decide) (by decide)

/-- C4 (the code, evaluated at the failing input): `PutIndication` of a
written Indication stores it in the pool unchanged (no `Reset` anywhere
on the put or get path), so the next `NewIndication` returns that
Indication still holding its entry — not an empty one. -/
theorem newIndication_after_put_written_not_empty :
    (newIndication (putIndication [] (some (writeKV [] [104] [1])))).1
        = some (writeKV [] [104] [1])
      ∧ writeKV [] [104] [1] ≠ [] := by
  constructor
  · rfl
  · decide

/-- C10: when the `open` function of a pipeline request fails, the
indicate worker sends a result with a nil Indication and the error, the
persist worker unconditionally calls `PutIndication` on it, the pool
stores the typed-nil pointer, and the next `NewIndication` returns
nil — the acquire is not guaranteed to yield a usable Indication. -/
theorem newIndication_nil_after_open_failure (p : IndPool) (e : String) :
    (scanResultOnOpenFailure e).ind = none
      ∧ (newIndication (persistStepOnError p (scanResultOnOpenFailure e))).1
          = none := ⟨rfl, rfl⟩

/-- C1 (counterexample): with an empty list of children (and the pool
empty),
`Indicators.Indicate` does not write the (empty) first-writer-wins
merge into the Indication of the caller: `wg1.Add(len(irs.irs) - 1)`
panics on the negative WaitGroup counter before any work happens. -/
theorem indicators_indicate_empty_children_crashes :
    indicatorsIndicate [] [] [] [] = .crash .negativeWaitGroup
      ∧ ∀ p1 : IndPool, indicatorsIndicate [] [] [] []
          ≠ .ok (writeKVs []
              (dedupFirst ((([] : List ChildFn).map (fun c => c [])).flatten)),
            p1) := by
  constructor
  · rfl
  · intro p1 h
    exact GoOutcome.noConfusion h

/-- C1 (amended: nonempty child list, clean pool): for every nonempty
list of child indicators, every source readable by the composite and by
each child sequentially, and every pool state whose pooled Indications
are all empty (as on the first `Indicate` call of a run — from the
second call on `Indicate`'s own `PutIndication` of its written lane
buffers can violate this, see the stale-pool theorem below),
`Indicators.Indicate` appends to the Indication of the
caller exactly the first-writer-wins merge, in child-index order, of the
children results: the key set is the union of the children key sets and
each key maps to the value of its first writer.  The written lane
buffers are pushed back onto the pool unreset. -/
theorem indicators_indicate_first_writer_wins (pool : IndPool)
    (cs : List ChildFn) (src ind : List Nat) (hne : cs ≠ [])
    (hpool : ∀ x ∈ pool, x = some [])
    (hlen : ∀ p ∈ (cs.map (fun c => c src)).flatten,
      p.1.length < 2 ^ 64 ∧ p.2.length < 2 ^ 64) :
    indicatorsIndicate pool cs src ind
        = .ok (writeKVs ind (dedupFirst ((cs.map (fun c => c src)).flatten)),
            (cs.map fun c => writeKVs [] (c src)).foldl
              (fun p b => putIndication p (some b)) (pool.drop cs.length))
      ∧ (∀ k, (∃ e ∈ dedupFirst ((cs.map (fun c => c src)).flatten), e.1 = k)
          ↔ ∃ es ∈ cs.map (fun c => c src), ∃ e ∈ es, e.1 = k)
      ∧ (∀ k, lookupFirst (dedupFirst ((cs.map (fun c => c src)).flatten)) k
          = lookupFirst ((cs.map (fun c => c src)).flatten) k) := by
  refine ⟨?_, ?_, ?_⟩
  · rw [indicatorsIndicate, if_neg (by simpa using hne),
        acquireLanes_clean cs.length pool hpool]
    have hmap : cs.map (fun c => writeKVs [] (c src))
        = (cs.map (fun c => c src)).map (fun es => writeKVs [] es) := by
      rw [List.map_map]
      rfl
    show GoOutcome.ok
        ((((cs.zip (List.replicate cs.length [])).map
              (fun cb => writeKVs cb.2 (cb.1 src))).foldl
            mergeBuf ([], ind)).2,
          ((cs.zip (List.replicate cs.length [])).map
              (fun cb => writeKVs cb.2 (cb.1 src))).foldl
            (fun p b => putIndication p (some b)) (pool.drop cs.length)) = _
    rw [zip_replicate_writeKVs src cs, hmap,
        mergeBuf_fold (cs.map (fun c => c src)) [] ind
          (fun es hes p hp => hlen p (List.mem_flatten.mpr ⟨es, hes, hp⟩))]
    rfl
  · intro k
    rw [dedupFirst, mem_keys_dedupFirstFrom k]
    simp [List.mem_flatten]
    tauto
  · intro k
    exact lookupFirst_dedupFirstFrom k _ [] (by simp)

theorem indicators_indicate_first_writer_wins_witness :
    indicatorsIndicate [] [childOne, childTwo] [] []
      = .ok (writeKVs [] [([97], [1]), ([98], [3])],
          [some (writeKVs [] [([97], [2]), ([98], [3])]),
            some (writeKVs [] [([97], [1])])]) := by
  have h := indicators_indicate_first_writer_wins [] [childOne, childTwo] [] []
    (by simp) (by simp) (by decide)
  rw [h.1]
  rfl

/-- The original claim fails from the second `Indicate` call on: the
first call (pool clean, child `childTwo`) pools its written lane buffer
unreset, so the second call (child `childOne`) starts its lane on the
stale buffer, whose entries win the first-writer-wins merge — the
output holds the stale key `98` and the stale value `[2]` for key `97`,
not the merge `[([97], [1])]` of the current children's results. -/
theorem indicators_indicate_stale_pool_second_call :
    indicatorsIndicate [] [childTwo] [] []
        = .ok (writeKVs [] [([97], [2]), ([98], [3])],
            [some (writeKVs [] [([97], [2]), ([98], [3])])])
      ∧ indicatorsIndicate [some (writeKVs [] [([97], [2]), ([98], [3])])]
          [childOne] [] []
          = .ok (writeKVs [] [([97], [2]), ([98], [3])],
              [some (writeKVs [] [([97], [2]), ([98], [3]), ([97], [1])])])
      ∧ writeKVs [] [([97], [2]), ([98], [3])]
          ≠ writeKVs []
              (dedupFirst ((([childOne] : List ChildFn).map
                (fun c => c [])).flatten)) := by
  refine ⟨rfl, rfl, by decide⟩

/-- C9 (counterexample): after `Close`, a call to `Indicate` does not
return an indicator-closed error value: it panics on
`wg1.Add(len(irs.irs) - 1)` with the child slices nil. -/
theorem indicate_after_close_no_error_return :
    indicatorsIndicate [] (indicatorsClose [childThree]) [] []
        = .crash .negativeWaitGroup
      ∧ (indicatorsIndicate [] (indicatorsClose [childThree]) [] []).isErrReturn
          = false := ⟨rfl, rfl⟩

/-- C9 (amended): after `Close` returns, every subsequent `Indicate`
call — whatever the pool holds — crashes with a negative-WaitGroup
panic; it neither succeeds nor returns an error. -/
theorem indicate_after_close_crashes (pool : IndPool) (cs : List ChildFn)
    (src ind : List Nat) :
    indicatorsIndicate pool (indicatorsClose cs) src ind
      = .crash .negativeWaitGroup := rfl

/-- C2 (the code, evaluated at the failing input): after
`SetIndications(u1, {k ↦ [1]})` and `SetIndications(u2, {k ↦ [2]})`,
`Indications(u1)` — whose query never filters by the URI — folds the
rows of every resource into one lookup, returning the mapping
`{k ↦ [2]}` instead of the mapping `{k ↦ [1]}` of `u1`. -/
theorem indications_ignore_uri :
    (twoResourceState.map (fun st2 =>
        getIndicationsLookup st2 ['u', '1'])) = .ok [([107], [2])]
      ∧ indicationLookup (writeKV [] [107] [1]) = .ok [([107], [1])]
      ∧ ([([107], [2])] : List (List Nat × List Nat)) ≠ [([107], [1])] := by
  refine ⟨rfl, rfl, by decide⟩

theorem lookupAssoc_mem {m : List (List Nat × List Nat)} {k v : List Nat}
    (h : lookupAssoc m k = some v) : (k, v) ∈ m := by
  rw [lookupAssoc] at h
  cases hf : List.find? (fun e => e.1 == k) m with
  | none => rw [hf] at h; cases h
  | some e =>
    rw [hf] at h
    replace h : e.2 = v := by simpa using h
    have hm := List.mem_of_find?_eq_some hf
    have hp := List.find?_some hf
    have he1 : e.1 = k := by simpa using hp
    have he : e = (k, v) := by
      rw [← he1, ← h]
    rw [← he]
    exact hm

theorem mem_lookupAssoc_nodup {m : List (List Nat × List Nat)} {k v : List Nat}
    (hnd : KeysNodup m) (h : (k, v) ∈ m) : lookupAssoc m k = some v := by
  induction m with
  | nil => simp at h
  | cons e rest ih =>
    have hnd2 : e.1 ∉ rest.map Prod.fst ∧ (rest.map Prod.fst).Nodup :=
      List.nodup_cons.mp (show (e.1 :: rest.map Prod.fst).Nodup from hnd)
    rcases List.mem_cons.mp h with rfl | h2
    · rw [lookupAssoc, List.find?_cons_of_pos _ (by simp)]
      rfl
    · have he : ¬(e.1 = k) := by
        intro hek
        apply hnd2.1
        rw [hek]
        exact List.mem_map.mpr ⟨(k, v), h2, rfl⟩
      rw [lookupAssoc, List.find?_cons_of_neg _ (by simpa using he)]
      exact ih hnd2.2 h2

theorem lookupAssoc_cons_ne {e : List Nat × List Nat}
    {rest : List (List Nat × List Nat)} {k : List Nat} (h : ¬(e.1 = k)) :
    lookupAssoc (e :: rest) k = lookupAssoc rest k := by
  rw [lookupAssoc, List.find?_cons_of_neg _ (by simpa using h), lookupAssoc]

theorem removeAssoc_cons_eq {e : List Nat × List Nat}
    {rest : List (List Nat × List Nat)} {k : List Nat} (h : e.1 = k) :
    removeAssoc (e :: rest) k = removeAssoc rest k := by
  simp [removeAssoc, List.filter_cons, h]

theorem removeAssoc_cons_ne {e : List Nat × List Nat}
    {rest : List (List Nat × List Nat)} {k : List Nat} (h : ¬(e.1 = k)) :
    removeAssoc (e :: rest) k = e :: removeAssoc rest k := by
  simp [removeAssoc, List.filter_cons, h]

theorem lookupAssoc_removeAssoc_ne {k k2 : List Nat} (h : ¬(k2 = k)) :
    ∀ (m : List (List Nat × List Nat)),
      lookupAssoc (removeAssoc m k) k2 = lookupAssoc m k2 := by
  intro m
  induction m with
  | nil => rfl
  | cons e rest ih =>
    by_cases hek : e.1 = k
    · have hek2 : ¬(e.1 = k2) := by
        rw [hek]
        exact fun h2 => h h2.symm
      rw [removeAssoc_cons_eq hek, ih, lookupAssoc_cons_ne hek2]
    · rw [removeAssoc_cons_ne hek]
      by_cases hek2 : e.1 = k2
      · rw [lookupAssoc, List.find?_cons_of_pos _ (by simpa using hek2),
            lookupAssoc, List.find?_cons_of_pos _ (by simpa using hek2)]
      · rw [lookupAssoc_cons_ne hek2, lookupAssoc_cons_ne hek2, ih]

theorem mem_removeAssoc {m : List (List Nat × List Nat)} {k : List Nat}
    {p : List Nat × List Nat} :
    p ∈ removeAssoc m k ↔ p ∈ m ∧ ¬(p.1 = k) := by
  simp [removeAssoc, List.mem_filter]

theorem removeAssoc_sublist (m : List (List Nat × List Nat)) (k : List Nat) :
    (removeAssoc m k).Sublist m :=
  List.filter_sublist m

theorem keysNodup_removeAssoc {m : List (List Nat × List Nat)} (k : List Nat)
    (h : KeysNodup m) : KeysNodup (removeAssoc m k) :=
  List.Nodup.sublist (List.Sublist.map Prod.fst (removeAssoc_sublist m k)) h

theorem keysNodup_setAssoc {m : List (List Nat × List Nat)} (k v : List Nat)
    (h : KeysNodup m) : KeysNodup (setAssoc m k v) := by
  rw [setAssoc]
  by_cases ha : m.any (fun e => e.1 == k)
  · rw [if_pos ha]
    show ((m.map (fun e => if e.1 == k then (k, v) else e)).map Prod.fst).Nodup
    rw [List.map_map]
    have hkeys : m.map (Prod.fst ∘ fun e => if e.1 == k then (k, v) else e)
        = m.map Prod.fst := by
      apply List.map_congr_left
      intro e _
      by_cases he : e.1 = k
      · simp [Function.comp, he]
      · simp [Function.comp, he]
    rw [hkeys]
    exact h
  · rw [if_neg ha]
    have hk : k ∉ m.map Prod.fst := by
      intro hmem
      rcases List.mem_map.mp hmem with ⟨e, hem, hek⟩
      exact ha (List.any_eq_true.mpr ⟨e, hem, by simpa using hek⟩)
    show ((m ++ [(k, v)]).map Prod.fst).Nodup
    rw [List.map_append]
    rw [List.nodup_append]
    refine ⟨h, by simp, ?_⟩
    intro a ha2 hb
    rcases List.mem_map.mp hb with ⟨e, hem, hek⟩
    have he : e = (k, v) := by simpa using hem
    rw [he] at hek
    have hka : k = a := hek
    rw [← hka] at ha2
    exact hk ha2

theorem keysNodup_foldl_setAssoc (ps : List (List Nat × List Nat)) :
    ∀ m, KeysNodup m → KeysNodup (ps.foldl (fun m p => setAssoc m p.1 p.2) m) := by
  induction ps with
  | nil => intro m h; simpa using h
  | cons p rest ih =>
    intro m h
    exact ih _ (keysNodup_setAssoc p.1 p.2 h)

theorem keysNodup_of_indicationLookup {indBuf : List Nat}
    {lu : List (List Nat × List Nat)} (h : indicationLookup indBuf = .ok lu) :
    KeysNodup lu := by
  rw [indicationLookup] at h
  cases hr : readAll indBuf with
  | error e => rw [hr] at h; cases h
  | ok ps =>
    rw [hr] at h
    simp only [Except.ok.injEq] at h
    rw [← h]
    exact keysNodup_foldl_setAssoc ps [] (by simp [KeysNodup])

/-! ### Properties of the diff loop -/

theorem foldl_diffStep_eq :
    ∀ (rows : List DbRow) (m : List (List Nat × List Nat)) (del : List DbRow),
      rows.foldl diffStep (m, del)
        = ((diffRec m rows).1, del ++ (diffRec m rows).2.1) := by
  intro rows
  induction rows with
  | nil => intro m del; simp [diffRec]
  | cons row rows ih =>
    intro m del
    rw [List.foldl_cons]
    cases hl : lookupAssoc m row.key with
    | some v =>
      by_cases hv : v == row.value
      · rw [show diffStep (m, del) row = (removeAssoc m row.key, del) by
          simp [diffStep, hl, hv]]
        rw [ih]
        rw [show diffRec m (row :: rows)
              = ((diffRec (removeAssoc m row.key) rows).1,
                 (diffRec (removeAssoc m row.key) rows).2.1,
                 row :: (diffRec (removeAssoc m row.key) rows).2.2) by
          simp [diffRec, hl, hv]]
      · rw [show diffStep (m, del) row = (m, del ++ [row]) by
            simp [diffStep, hl, hv]]
        rw [ih]
        rw [show diffRec m (row :: rows)
              = ((diffRec m rows).1,
                 row :: (diffRec m rows).2.1,
                 (diffRec m rows).2.2) by
          simp [diffRec, hl, hv]]
        simp
    | none =>
      rw [show diffStep (m, del) row = (m, del ++ [row]) by
          simp [diffStep, hl]]
      rw [ih]
      rw [show diffRec m (row :: rows)
            = ((diffRec m rows).1,
               row :: (diffRec m rows).2.1,
               (diffRec m rows).2.2) by
        simp [diffRec, hl]]
      simp

theorem diffRows_eq_diffRec (lu : List (List Nat × List Nat)) (rows : List DbRow) :
    diffRows lu rows = ((diffRec lu rows).1, (diffRec lu rows).2.1) := by
  rw [diffRows, foldl_diffStep_eq]
  simp

theorem diffRec_remaining_sublist :
    ∀ (rows : List DbRow) (m : List (List Nat × List Nat)),
      ((diffRec m rows).1).Sublist m := by
  intro rows
  induction rows with
  | nil => intro m; simp [diffRec]
  | cons row rows ih =>
    intro m
    cases hl : lookupAssoc m row.key with
    | some v =>
      by_cases hv : v == row.value
      · rw [show (diffRec m (row :: rows)).1
              = (diffRec (removeAssoc m row.key) rows).1 by simp [diffRec, hl, hv]]
        exact (ih (removeAssoc m row.key)).trans (removeAssoc_sublist m row.key)
      · rw [show (diffRec m (row :: rows)).1 = (diffRec m rows).1 by
          simp [diffRec, hl, hv]]
        exact ih m
    | none =>
      rw [show (diffRec m (row :: rows)).1 = (diffRec m rows).1 by
        simp [diffRec, hl]]
      exact ih m

theorem diffRec_marked_mem :
    ∀ (rows : List DbRow) (m : List (List Nat × List Nat)),
      ∀ row ∈ (diffRec m rows).2.1, row ∈ rows := by
  intro rows
  induction rows with
  | nil => intro m row hrow; simp [diffRec] at hrow
  | cons row rows ih =>
    intro m r hr
    cases hl : lookupAssoc m row.key with
    | some v =>
      by_cases hv : v == row.value
      · rw [show (diffRec m (row :: rows)).2.1
              = (diffRec (removeAssoc m row.key) rows).2.1 by simp [diffRec, hl, hv]] at hr
        exact List.mem_cons_of_mem _ (ih _ _ hr)
      · rw [show (diffRec m (row :: rows)).2.1 = row :: (diffRec m rows).2.1 by
          simp [diffRec, hl, hv]] at hr
        rcases List.mem_cons.mp hr with rfl | hr2
        · exact List.mem_cons_self _ _
        · exact List.mem_cons_of_mem _ (ih _ _ hr2)
    | none =>
      rw [show (diffRec m (row :: rows)).2.1 = row :: (diffRec m rows).2.1 by
        simp [diffRec, hl]] at hr
      rcases List.mem_cons.mp hr with rfl | hr2
      · exact List.mem_cons_self _ _
      · exact List.mem_cons_of_mem _ (ih _ _ hr2)

theorem diffRec_kept_lookup :
    ∀ (rows : List DbRow) (m : List (List Nat × List Nat)), KeysNodup m →
      ∀ row ∈ (diffRec m rows).2.2, lookupAssoc m row.key = some row.value := by
  intro rows
  induction rows with
  | nil => intro m _ row hrow; simp [diffRec] at hrow
  | cons row rows ih =>
    intro m hnd r hr
    cases hl : lookupAssoc m row.key with
    | some v =>
      by_cases hv : v == row.value
      · rw [show (diffRec m (row :: rows)).2.2
              = row :: (diffRec (removeAssoc m row.key) rows).2.2 by
          simp [diffRec, hl, hv]] at hr
        rcases List.mem_cons.mp hr with rfl | hr2
        · rw [hl]
          congr 1
          exact (eq_of_beq hv)
        · have h2 := ih (removeAssoc m row.key) (keysNodup_removeAssoc _ hnd) r hr2
          have h3 : (r.key, r.value) ∈ removeAssoc m row.key := lookupAssoc_mem h2
          exact mem_lookupAssoc_nodup hnd (mem_removeAssoc.mp h3).1
      · rw [show (diffRec m (row :: rows)).2.2 = (diffRec m rows).2.2 by
          simp [diffRec, hl, hv]] at hr
        exact ih m hnd r hr
    | none =>
      rw [show (diffRec m (row :: rows)).2.2 = (diffRec m rows).2.2 by
        simp [diffRec, hl]] at hr
      exact ih m hnd r hr

theorem diffRec_kept_key_mem :
    ∀ (rows : List DbRow) (m : List (List Nat × List Nat)), KeysNodup m →
      ∀ row ∈ (diffRec m rows).2.2, row.key ∈ m.map Prod.fst := by
  intro rows m hnd row hrow
  have h := diffRec_kept_lookup rows m hnd row hrow
  exact List.mem_map.mpr ⟨(row.key, row.value), lookupAssoc_mem h, rfl⟩

theorem diffRec_kept_not_in_remaining :
    ∀ (rows : List DbRow) (m : List (List Nat × List Nat)), KeysNodup m →
      ∀ row ∈ (diffRec m rows).2.2,
        row.key ∉ ((diffRec m rows).1).map Prod.fst := by
  intro rows
  induction rows with
  | nil => intro m _ row hrow; simp [diffRec] at hrow
  | cons row rows ih =>
    intro m hnd r hr
    cases hl : lookupAssoc m row.key with
    | some v =>
      by_cases hv : v == row.value
      · have hres : (diffRec m (row :: rows)).1
            = (diffRec (removeAssoc m row.key) rows).1 := by
          simp [diffRec, hl, hv]
        rw [show (diffRec m (row :: rows)).2.2
              = row :: (diffRec (removeAssoc m row.key) rows).2.2 by
          simp [diffRec, hl, hv]] at hr
        rw [hres]
        rcases List.mem_cons.mp hr with rfl | hr2
        · intro hmem
          have hsub : ((diffRec (removeAssoc m r.key) rows).1).Sublist
              (removeAssoc m r.key) := diffRec_remaining_sublist rows _
          have := (List.Sublist.map Prod.fst hsub).mem hmem
          rcases List.mem_map.mp this with ⟨p, hp, hpk⟩
          exact (mem_removeAssoc.mp hp).2 hpk
        · exact ih (removeAssoc m row.key) (keysNodup_removeAssoc _ hnd) r hr2
      · rw [show (diffRec m (row :: rows)).2.2 = (diffRec m rows).2.2 by
          simp [diffRec, hl, hv]] at hr
        rw [show (diffRec m (row :: rows)).1 = (diffRec m rows).1 by
          simp [diffRec, hl, hv]]
        exact ih m hnd r hr
    | none =>
      rw [show (diffRec m (row :: rows)).2.2 = (diffRec m rows).2.2 by
        simp [diffRec, hl]] at hr
      rw [show (diffRec m (row :: rows)).1 = (diffRec m rows).1 by
        simp [diffRec, hl]]
      exact ih m hnd r hr

theorem diffRec_kept_keys_nodup :
    ∀ (rows : List DbRow) (m : List (List Nat × List Nat)), KeysNodup m →
      (((diffRec m rows).2.2).map (fun r => r.key)).Nodup := by
  intro rows
  induction rows with
  | nil => intro m _; simp [diffRec]
  | cons row rows ih =>
    intro m hnd
    cases hl : lookupAssoc m row.key with
    | some v =>
      by_cases hv : v == row.value
      · rw [show (diffRec m (row :: rows)).2.2
              = row :: (diffRec (removeAssoc m row.key) rows).2.2 by
          simp [diffRec, hl, hv]]
        rw [List.map_cons, List.nodup_cons]
        refine ⟨?_, ih (removeAssoc m row.key) (keysNodup_removeAssoc _ hnd)⟩
        intro hmem
        rcases List.mem_map.mp hmem with ⟨r, hr, hrk⟩
        have h2 := diffRec_kept_key_mem rows (removeAssoc m row.key)
          (keysNodup_removeAssoc _ hnd) r hr
        rcases List.mem_map.mp h2 with ⟨p, hp, hpk⟩
        rw [← hpk] at hrk
        exact (mem_removeAssoc.mp hp).2 (by rw [hrk])
      · rw [show (diffRec m (row :: rows)).2.2 = (diffRec m rows).2.2 by
          simp [diffRec, hl, hv]]
        exact ih m hnd
    | none =>
      rw [show (diffRec m (row :: rows)).2.2 = (diffRec m rows).2.2 by
        simp [diffRec, hl]]
      exact ih m hnd

theorem diffRec_coverage :
    ∀ (rows : List DbRow) (m : List (List Nat × List Nat)),
      ∀ p ∈ m, p ∈ (diffRec m rows).1
        ∨ ∃ row ∈ (diffRec m rows).2.2, row.key = p.1 := by
  intro rows
  induction rows with
  | nil => intro m p hp; left; simpa [diffRec] using hp
  | cons row rows ih =>
    intro m p hp
    cases hl : lookupAssoc m row.key with
    | some v =>
      by_cases hv : v == row.value
      · have h22 : (diffRec m (row :: rows)).2.2
            = row :: (diffRec (removeAssoc m row.key) rows).2.2 := by
          simp [diffRec, hl, hv]
        have h1 : (diffRec m (row :: rows)).1
            = (diffRec (removeAssoc m row.key) rows).1 := by
          simp [diffRec, hl, hv]
        by_cases hpk : p.1 = row.key
        · right
          exact ⟨row, by rw [h22]; exact List.mem_cons_self _ _, hpk.symm⟩
        · have hp2 : p ∈ removeAssoc m row.key :=
            mem_removeAssoc.mpr ⟨hp, hpk⟩
          rcases ih (removeAssoc m row.key) p hp2 with h | ⟨r, hr, hrk⟩
          · left
            rw [h1]
            exact h
          · right
            exact ⟨r, by rw [h22]; exact List.mem_cons_of_mem _ hr, hrk⟩
      · have h22 : (diffRec m (row :: rows)).2.2 = (diffRec m rows).2.2 := by
          simp [diffRec, hl, hv]
        have h1 : (diffRec m (row :: rows)).1 = (diffRec m rows).1 := by
          simp [diffRec, hl, hv]
        rw [h1, h22]
        exact ih m p hp
    | none =>
      have h22 : (diffRec m (row :: rows)).2.2 = (diffRec m rows).2.2 := by
        simp [diffRec, hl]
      have h1 : (diffRec m (row :: rows)).1 = (diffRec m rows).1 := by
        simp [diffRec, hl]
      rw [h1, h22]
      exact ih m p hp

theorem diffRec_kept_filter :
    ∀ (rows : List DbRow) (m : List (List Nat × List Nat)),
      ((rows.map (fun r => r.indicationId)).Nodup) →
      rows.filter (fun row => ((diffRec m rows).2.1).all
          (fun del => ¬(del.indicationId == row.indicationId)))
        = (diffRec m rows).2.2 := by
  intro rows
  induction rows with
  | nil => intro m _; simp [diffRec]
  | cons row rows ih =>
    intro m hnd
    have hnd2 : row.indicationId ∉ rows.map (fun r => r.indicationId)
        ∧ ((rows.map (fun r => r.indicationId)).Nodup) :=
      List.nodup_cons.mp
        (show (row.indicationId :: rows.map (fun r => r.indicationId)).Nodup from hnd)
    cases hl : lookupAssoc m row.key with
    | some v =>
      by_cases hv : v == row.value
      · have h21 : (diffRec m (row :: rows)).2.1
            = (diffRec (removeAssoc m row.key) rows).2.1 := by
          simp [diffRec, hl, hv]
        have h22 : (diffRec m (row :: rows)).2.2
            = row :: (diffRec (removeAssoc m row.key) rows).2.2 := by
          simp [diffRec, hl, hv]
        rw [h21, h22, List.filter_cons]
        have hkeep : ((diffRec (removeAssoc m row.key) rows).2.1).all
            (fun del => ¬(del.indicationId == row.indicationId)) = true := by
          rw [List.all_eq_true]
          intro del hdel
          have hmem := diffRec_marked_mem rows (removeAssoc m row.key) del hdel
          have hne : ¬(del.indicationId = row.indicationId) := by
            intro he
            exact hnd2.1 (he ▸ List.mem_map.mpr ⟨del, hmem, rfl⟩)
          simpa using hne
        rw [if_pos hkeep]
        rw [ih (removeAssoc m row.key) hnd2.2]
      · have h21 : (diffRec m (row :: rows)).2.1
              = row :: (diffRec m rows).2.1 := by
            simp [diffRec, hl, hv]
        have h22 : (diffRec m (row :: rows)).2.2 = (diffRec m rows).2.2 := by
            simp [diffRec, hl, hv]
        rw [h21, h22, List.filter_cons]
        have hdrop : ((row :: (diffRec m rows).2.1).all
            (fun del => ¬(del.indicationId == row.indicationId))) = false := by
          simp
        rw [if_neg (by simp [hdrop])]
        have hcong : rows.filter (fun r => ((row :: (diffRec m rows).2.1).all
              (fun del => ¬(del.indicationId == r.indicationId))))
            = rows.filter (fun r => ((diffRec m rows).2.1).all
              (fun del => ¬(del.indicationId == r.indicationId))) := by
          apply List.filter_congr
          intro r hr
          have hne : ¬(row.indicationId = r.indicationId) := by
            intro he
            exact hnd2.1 (he ▸ List.mem_map.mpr ⟨r, hr, rfl⟩)
          simp only [List.all_cons, Bool.and_eq_true]
          simp [hne]
        rw [hcong, ih m hnd2.2]
    | none =>
      have h21 : (diffRec m (row :: rows)).2.1
            = row :: (diffRec m rows).2.1 := by
          simp [diffRec, hl]
      have h22 : (diffRec m (row :: rows)).2.2 = (diffRec m rows).2.2 := by
          simp [diffRec, hl]
      rw [h21, h22, List.filter_cons]
      rw [if_neg (by simp)]
      have hcong : rows.filter (fun r => ((row :: (diffRec m rows).2.1).all
            (fun del => ¬(del.indicationId == r.indicationId))))
          = rows.filter (fun r => ((diffRec m rows).2.1).all
            (fun del => ¬(del.indicationId == r.indicationId))) := by
        apply List.filter_congr
        intro r hr
        have hne : ¬(row.indicationId = r.indicationId) := by
          intro he
          exact hnd2.1 (he ▸ List.mem_map.mpr ⟨r, hr, rfl⟩)
        simp only [List.all_cons, Bool.and_eq_true]
        simp [hne]
      rw [hcong, ih m hnd2.2]

theorem diffRows_exact :
    ∀ (rows : List DbRow) (lu : List (List Nat × List Nat)),
      (∀ row ∈ rows, lookupAssoc lu row.key = some row.value) →
      ((rows.map (fun r => r.key)).Nodup) →
      (∀ p ∈ lu, ∃ row ∈ rows, row.key = p.1) →
      diffRows lu rows = ([], []) := by
  intro rows
  induction rows with
  | nil =>
    intro lu _ _ hc
    have hlu : lu = [] := by
      cases hlu : lu with
      | nil => rfl
      | cons p rest =>
        rcases hc p (by rw [hlu]; exact List.mem_cons_self _ _) with ⟨row, hrow, _⟩
        simp at hrow
    rw [hlu]
    rfl
  | cons row rows ih =>
    intro lu ha hb hc
    have hndk : row.key ∉ rows.map (fun r => r.key)
        ∧ ((rows.map (fun r => r.key)).Nodup) :=
      List.nodup_cons.mp
        (show (row.key :: rows.map (fun r => r.key)).Nodup from hb)
    have hl : lookupAssoc lu row.key = some row.value :=
      ha row (List.mem_cons_self _ _)
    rw [diffRows, List.foldl_cons,
        show diffStep (lu, []) row = (removeAssoc lu row.key, []) by
          simp [diffStep, hl]]
    rw [show rows.foldl diffStep (removeAssoc lu row.key, [])
          = diffRows (removeAssoc lu row.key) rows from rfl]
    apply ih (removeAssoc lu row.key)
    · intro r hr
      have hne : ¬(r.key = row.key) := by
        intro he
        exact hndk.1 (he ▸ List.mem_map.mpr ⟨r, hr, rfl⟩)
      rw [lookupAssoc_removeAssoc_ne hne]
      exact ha r (List.mem_cons_of_mem _ hr)
    · exact hndk.2
    · intro p hp
      have hp2 := mem_removeAssoc.mp hp
      rcases hc p hp2.1 with ⟨r, hr, hrk⟩
      rcases List.mem_cons.mp hr with rfl | hr2
      · exact absurd hrk.symm hp2.2
      · exact ⟨r, hr2, hrk⟩

/-! ### Rows generated for the remaining mapping entries -/

theorem rowsOf_keys :
    ∀ (lu : List (List Nat × List Nat)) (s rid : Nat),
      (rowsOf s rid lu).map (fun r => r.key) = lu.map Prod.fst := by
  intro lu
  induction lu with
  | nil => intro s rid; simp [rowsOf]
  | cons p rest ih => intro s rid; simp [rowsOf, ih]

theorem rowsOf_mem_pair :
    ∀ (lu : List (List Nat × List Nat)) (s rid : Nat) (row : DbRow),
      row ∈ rowsOf s rid lu → (row.key, row.value) ∈ lu ∧ row.resId = rid := by
  intro lu
  induction lu with
  | nil => intro s rid row h; simp [rowsOf] at h
  | cons p rest ih =>
    intro s rid row h
    rw [rowsOf] at h
    rcases List.mem_cons.mp h with rfl | h2
    · exact ⟨by simp, rfl⟩
    · rcases ih (s + 1) rid row h2 with ⟨h3, h4⟩
      exact ⟨List.mem_cons_of_mem _ h3, h4⟩

theorem rowsOf_filter_resId :
    ∀ (lu : List (List Nat × List Nat)) (s rid : Nat),
      (rowsOf s rid lu).filter (fun row => row.resId == rid) = rowsOf s rid lu := by
  intro lu
  induction lu with
  | nil => intro s rid; simp [rowsOf]
  | cons p rest ih =>
    intro s rid
    rw [rowsOf, List.filter_cons, if_pos (by simp), ih]

theorem rowsOf_filter_resId_ne :
    ∀ (lu : List (List Nat × List Nat)) (s rid rid2 : Nat), ¬(rid = rid2) →
      (rowsOf s rid lu).filter (fun row => row.resId == rid2) = [] := by
  intro lu
  induction lu with
  | nil => intro s rid rid2 _; simp [rowsOf]
  | cons p rest ih =>
    intro s rid rid2 hne
    rw [rowsOf, List.filter_cons, if_neg (by simpa using hne), ih _ _ _ hne]

theorem rowsOf_length (lu : List (List Nat × List Nat)) :
    ∀ (s rid : Nat), (rowsOf s rid lu).length = lu.length := by
  induction lu with
  | nil => intro s rid; simp [rowsOf]
  | cons p rest ih => intro s rid; simp [rowsOf, ih]

theorem setIndicationsCore_noop (st1 : DbState) (uri : List Char)
    (indBuf : List Nat) (lu : List (List Nat × List Nat))
    (hlu : indicationLookup indBuf = .ok lu) (r : Nat × List Char)
    (hfind : st1.resources.find? (fun q => q.2 == uri) = some r)
    (ha : ∀ row ∈ st1.indications.filter (fun row => row.resId == r.1),
      lookupAssoc lu row.key = some row.value)
    (hb : (((st1.indications.filter (fun row => row.resId == r.1)).map
      (fun row => row.key)).Nodup))
    (hc : ∀ p ∈ lu, ∃ row ∈ st1.indications.filter (fun row => row.resId == r.1),
      row.key = p.1) :
    setIndicationsCore st1 uri indBuf = .ok ⟨st1, [], []⟩ := by
  have hd : diffRows lu (st1.indications.filter (fun row => row.resId == r.1))
      = ([], []) := diffRows_exact _ lu ha hb hc
  rw [setIndicationsCore, hlu, hfind]
  simp only [hd, List.all_nil, List.length_nil, Nat.add_zero, rowsOf, List.append_nil]
  rw [show (st1.indications.filter fun _ => true) = st1.indications by
    apply List.filter_eq_self.mpr
    intro a _
    rfl]

theorem setIndications_again_fresh (st0 : DbState) (uri : List Char)
    (indBuf : List Nat) (lu : List (List Nat × List Nat))
    (hlu : indicationLookup indBuf = .ok lu)
    (hwfRes : ∀ r ∈ st0.resources, r.1 < st0.nextResourceId)
    (hwfRows : ∀ row ∈ st0.indications, ∃ r ∈ st0.resources, r.1 = row.resId)
    (hfind : st0.resources.find? (fun q => q.2 == uri) = none) :
    setIndicationsCore
      { nextResourceId := st0.nextResourceId + 1
        nextIndicationId := st0.nextIndicationId + lu.length
        resources := st0.resources ++ [(st0.nextResourceId, uri)]
        indications := st0.indications
          ++ rowsOf st0.nextIndicationId st0.nextResourceId lu } uri indBuf
      = .ok ⟨{ nextResourceId := st0.nextResourceId + 1
               nextIndicationId := st0.nextIndicationId + lu.length
               resources := st0.resources ++ [(st0.nextResourceId, uri)]
               indications := st0.indications
                 ++ rowsOf st0.nextIndicationId st0.nextResourceId lu }, [], []⟩ := by
  have hnd : KeysNodup lu := keysNodup_of_indicationLookup hlu
  have hfind1 : (st0.resources ++ [(st0.nextResourceId, uri)]).find?
      (fun q => q.2 == uri) = some (st0.nextResourceId, uri) := by
    rw [List.find?_append, hfind]
    simp
  have hrows1 : ((st0.indications
        ++ rowsOf st0.nextIndicationId st0.nextResourceId lu).filter
      (fun row => row.resId == st0.nextResourceId))
      = rowsOf st0.nextIndicationId st0.nextResourceId lu := by
    rw [List.filter_append]
    rw [show st0.indications.filter (fun row => row.resId == st0.nextResourceId)
          = [] by
      rw [List.filter_eq_nil_iff]
      intro row hrow
      rcases hwfRows row hrow with ⟨r, hr, hrid⟩
      have hlt := hwfRes r hr
      simp only [beq_iff_eq]
      omega]
    rw [rowsOf_filter_resId]
    simp
  apply setIndicationsCore_noop _ _ _ lu hlu (st0.nextResourceId, uri) hfind1
  · intro row hrow
    rw [show ({ nextResourceId := st0.nextResourceId + 1
                nextIndicationId := st0.nextIndicationId + lu.length
                resources := st0.resources ++ [(st0.nextResourceId, uri)]
                indications := st0.indications
                  ++ rowsOf st0.nextIndicationId st0.nextResourceId lu } : DbState).indications
          = st0.indications ++ rowsOf st0.nextIndicationId st0.nextResourceId lu
        from rfl, hrows1] at hrow
    rcases rowsOf_mem_pair lu _ _ row hrow with ⟨hmem, _⟩
    exact mem_lookupAssoc_nodup hnd hmem
  · rw [show ({ nextResourceId := st0.nextResourceId + 1
                nextIndicationId := st0.nextIndicationId + lu.length
                resources := st0.resources ++ [(st0.nextResourceId, uri)]
                indications := st0.indications
                  ++ rowsOf st0.nextIndicationId st0.nextResourceId lu } : DbState).indications
          = st0.indications ++ rowsOf st0.nextIndicationId st0.nextResourceId lu
        from rfl, hrows1, rowsOf_keys]
    exact hnd
  · intro p hp
    rw [show ({ nextResourceId := st0.nextResourceId + 1
                nextIndicationId := st0.nextIndicationId + lu.length
                resources := st0.resources ++ [(st0.nextResourceId, uri)]
                indications := st0.indications
                  ++ rowsOf st0.nextIndicationId st0.nextResourceId lu } : DbState).indications
          = st0.indications ++ rowsOf st0.nextIndicationId st0.nextResourceId lu
        from rfl, hrows1]
    have hpk : p.1 ∈ (rowsOf st0.nextIndicationId st0.nextResourceId lu).map
        (fun r => r.key) := by
      rw [rowsOf_keys]
      exact List.mem_map.mpr ⟨p, hp, rfl⟩
    rcases List.mem_map.mp hpk with ⟨row, hrow, hrk⟩
    exact ⟨row, hrow, hrk⟩

theorem setIndications_again_existing (st0 : DbState) (uri : List Char)
    (indBuf : List Nat) (lu : List (List Nat × List Nat))
    (hlu : indicationLookup indBuf = .ok lu)
    (hwfIds : ((st0.indications.map (fun row => row.indicationId)).Nodup))
    (r : Nat × List Char)
    (hfind : st0.resources.find? (fun q => q.2 == uri) = some r) :
    setIndicationsCore
      { nextResourceId := st0.nextResourceId
        nextIndicationId := st0.nextIndicationId
          + (diffRows lu (st0.indications.filter
              (fun row => row.resId == r.1))).1.length
        resources := st0.resources
        indications := (st0.indications.filter (fun row =>
            ((diffRows lu (st0.indications.filter
              (fun row2 => row2.resId == r.1))).2).all
              (fun del => ¬(del.indicationId == row.indicationId))))
          ++ rowsOf st0.nextIndicationId r.1
              (diffRows lu (st0.indications.filter
                (fun row => row.resId == r.1))).1 } uri indBuf
      = .ok ⟨{ nextResourceId := st0.nextResourceId
               nextIndicationId := st0.nextIndicationId
                 + (diffRows lu (st0.indications.filter
                     (fun row => row.resId == r.1))).1.length
               resources := st0.resources
               indications := (st0.indications.filter (fun row =>
                   ((diffRows lu (st0.indications.filter
                     (fun row2 => row2.resId == r.1))).2).all
                     (fun del => ¬(del.indicationId == row.indicationId))))
                 ++ rowsOf st0.nextIndicationId r.1
                     (diffRows lu (st0.indications.filter
                       (fun row => row.resId == r.1))).1 }, [], []⟩ := by
  have hnd : KeysNodup lu := keysNodup_of_indicationLookup hlu
  have hids0 : (((st0.indications.filter
      (fun row => row.resId == r.1)).map (fun row => row.indicationId)).Nodup) :=
    List.Nodup.sublist
      (List.Sublist.map _ (List.filter_sublist st0.indications)) hwfIds
  have hdq : diffRows lu (st0.indications.filter (fun row => row.resId == r.1))
      = ((diffRec lu (st0.indications.filter (fun row => row.resId == r.1))).1,
         (diffRec lu (st0.indications.filter (fun row => row.resId == r.1))).2.1) :=
    diffRows_eq_diffRec lu _
  have hkept := diffRec_kept_filter
    (st0.indications.filter (fun row => row.resId == r.1)) lu hids0
  rw [List.filter_filter] at hkept
  have hrows1 : (((st0.indications.filter (fun row =>
        ((diffRows lu (st0.indications.filter
          (fun row2 => row2.resId == r.1))).2).all
          (fun del => ¬(del.indicationId == row.indicationId))))
      ++ rowsOf st0.nextIndicationId r.1
          (diffRows lu (st0.indications.filter
            (fun row => row.resId == r.1))).1).filter
        (fun row => row.resId == r.1))
      = (diffRec lu (st0.indications.filter (fun row => row.resId == r.1))).2.2
        ++ rowsOf st0.nextIndicationId r.1
           (diffRec lu (st0.indications.filter (fun row => row.resId == r.1))).1 := by
    rw [List.filter_append, rowsOf_filter_resId, hdq]
    congr 1
    rw [List.filter_filter]
    rw [List.filter_congr (fun (a : DbRow) _ => Bool.and_comm (a.resId == r.1) _)]
    exact hkept
  refine setIndicationsCore_noop _ uri indBuf lu hlu r ?_ ?_ ?_ ?_
  · exact hfind
  · intro row hrow
    rw [hrows1] at hrow
    rcases List.mem_append.mp hrow with hk | hn
    · exact diffRec_kept_lookup _ lu hnd row hk
    · rcases rowsOf_mem_pair _ _ _ row hn with ⟨hmem, _⟩
      have hmem2 : (row.key, row.value) ∈ lu :=
        (diffRec_remaining_sublist _ lu).mem hmem
      exact mem_lookupAssoc_nodup hnd hmem2
  · rw [hrows1, List.map_append, List.nodup_append]
    refine ⟨diffRec_kept_keys_nodup _ lu hnd, ?_, ?_⟩
    · rw [rowsOf_keys]
      exact List.Nodup.sublist
        (List.Sublist.map _ (diffRec_remaining_sublist _ lu)) hnd
    · intro a hak hbk
      rcases List.mem_map.mp hak with ⟨row, hrow, hrk⟩
      rw [rowsOf_keys] at hbk
      apply diffRec_kept_not_in_remaining _ lu hnd row hrow
      rw [hrk]
      exact hbk
  · intro p hp
    rw [hrows1]
    rcases diffRec_coverage _ lu p hp with hrem | ⟨row, hrow, hrk⟩
    · have hpk : p.1 ∈ (rowsOf st0.nextIndicationId r.1
          (diffRec lu (st0.indications.filter
            (fun row => row.resId == r.1))).1).map (fun q => q.key) := by
        rw [rowsOf_keys]
        exact List.mem_map.mpr ⟨p, hrem, rfl⟩
      rcases List.mem_map.mp hpk with ⟨row, hrow, hrk⟩
      exact ⟨row, List.mem_append.mpr (Or.inr hrow), hrk⟩
    · exact ⟨row, List.mem_append.mpr (Or.inl hrow), hrk⟩

/-- C7: running `SetIndications(u, ind)` twice in succession from any
well-formed repository state is idempotent: the second call deletes no
rows, inserts no rows, and leaves the state untouched.  Well-formed:
resource ids are below the generator, every `Indication` row references
an existing resource, and row ids are distinct. -/
theorem setIndications_idempotent (st0 : DbState) (uri : List Char)
    (indBuf : List Nat)
    (hwfRes : ∀ r ∈ st0.resources, r.1 < st0.nextResourceId)
    (hwfRows : ∀ row ∈ st0.indications, ∃ r ∈ st0.resources, r.1 = row.resId)
    (hwfIds : ((st0.indications.map (fun row => row.indicationId)).Nodup))
    (st1 : DbState) (h1 : setIndications st0 uri indBuf = .ok st1) :
    setIndicationsCore st1 uri indBuf = .ok ⟨st1, [], []⟩ := by
  rw [setIndications] at h1
  cases hlu : indicationLookup indBuf with
  | error e =>
    rw [setIndicationsCore, hlu] at h1
    simp [Except.map] at h1
  | ok lu =>
    cases hfind : st0.resources.find? (fun q => q.2 == uri) with
    | none =>
      rw [setIndicationsCore, hlu, hfind] at h1
      simp only [Except.map, Except.ok.injEq] at h1
      rw [← h1]
      exact setIndications_again_fresh st0 uri indBuf lu hlu hwfRes hwfRows
        hfind
    | some r =>
      rw [setIndicationsCore, hlu, hfind] at h1
      simp only [Except.map, Except.ok.injEq] at h1
      rw [← h1]
      exact setIndications_again_existing st0 uri indBuf lu hlu hwfIds r
        hfind

theorem setIndications_idempotent_witness :
    (setIndications ⟨1, 1, [], []⟩ [] (writeKV [] [107] [5])
        = .ok { nextResourceId := 2, nextIndicationId := 2,
                resources := [(1, [])],
                indications := [⟨1, 1, [107], [5]⟩] })
      ∧ setIndicationsCore
          { nextResourceId := 2, nextIndicationId := 2,
            resources := [(1, [])],
            indications := [⟨1, 1, [107], [5]⟩] } [] (writeKV [] [107] [5])
        = .ok ⟨{ nextResourceId := 2, nextIndicationId := 2,
                 resources := [(1, [])],
                 indications := [⟨1, 1, [107], [5]⟩] }, [], []⟩ := by
  constructor
  · rfl
  · exact setIndications_idempotent ⟨1, 1, [], []⟩ [] (writeKV [] [107] [5])
      (by intro r hr; simp at hr) (by intro row hrow; simp at hrow)
      (by simp) _ rfl

theorem ne_of_classes {p : Char → Bool} {c x : Char} (h : p c = true)
    (hx : p x = false) : ¬(c = x) := by
  intro he
  rw [he, hx] at h
  cases h

theorem toLower_of_lowerAlpha {c : Char} (h : lowerAlpha c = true) :
    c.toLower = c := by
  rw [lowerAlpha, Bool.and_eq_true] at h
  have h1 : 'a' ≤ c := of_decide_eq_true h.1
  have h2 : (97 : Nat) ≤ c.toNat := by
    rw [Char.le_def, UInt32.le_def] at h1
    have h3 := BitVec.le_def.mp h1
    simpa [Char.toNat] using h3
  rw [Char.toLower]
  simp only [ge_iff_le]
  rw [if_neg (by omega)]

theorem map_toLower_of_lowerAlpha {l : List Char} (h : ∀ c ∈ l, lowerAlpha c) :
    l.map Char.toLower = l := by
  induction l with
  | nil => rfl
  | cons c rest ih =>
    rw [List.map_cons, toLower_of_lowerAlpha (h c (by simp)),
        ih (fun d hd => h d (by simp [hd]))]

theorem lowerAlpha_isSchemeChar {c : Char} (h : lowerAlpha c = true) :
    isSchemeChar c = true := by
  rw [lowerAlpha, Bool.and_eq_true] at h
  have h1 : 'a' ≤ c := of_decide_eq_true h.1
  have h2 : c ≤ 'z' := of_decide_eq_true h.2
  have h3 : (97 : UInt32) ≤ c.val := h1
  have h4 : c.val ≤ (122 : UInt32) := h2
  rw [isSchemeChar, Char.isAlpha, Char.isLower]
  have h5 : (c.val ≥ 97 && c.val ≤ 122) = true := by
    rw [Bool.and_eq_true]
    exact ⟨decide_eq_true h3, decide_eq_true h4⟩
  rw [h5]
  simp

theorem takeWhile_append_stop (p : Char → Bool) (x : Char) (rest : List Char)
    (hx : ¬(p x = true)) :
    ∀ pre : List Char, (∀ c ∈ pre, p c = true) →
      (pre ++ x :: rest).takeWhile p = pre
        ∧ (pre ++ x :: rest).dropWhile p = x :: rest := by
  intro pre
  induction pre with
  | nil =>
    intro _
    constructor
    · rw [List.nil_append, List.takeWhile_cons]
      simp [hx]
    · rw [List.nil_append, List.dropWhile_cons]
      simp [hx]
  | cons a as ih =>
    intro hall
    have ha : p a = true := hall a (by simp)
    have hih := ih (fun c hc => hall c (by simp [hc]))
    constructor
    · rw [List.cons_append, List.takeWhile_cons, ha]
      simp only [hih.1, if_true]
    · rw [List.cons_append, List.dropWhile_cons, ha]
      simp only [hih.2, if_true]

theorem getScheme_canonical (sch rest : List Char)
    (hs : ∀ c ∈ sch, lowerAlpha c) :
    getScheme (sch ++ ':' :: rest) = (sch, rest) := by
  have hsc : ∀ c ∈ sch, isSchemeChar c = true :=
    fun c hc => lowerAlpha_isSchemeChar (hs c hc)
  have hcolon : ¬(isSchemeChar ':' = true) := by decide
  have hsplit := takeWhile_append_stop isSchemeChar ':' rest hcolon sch hsc
  rw [getScheme, hsplit.2, hsplit.1, map_toLower_of_lowerAlpha hs]
  rfl

theorem splitAtFirst_of_not_mem (ch : Char) :
    ∀ s : List Char, (∀ c ∈ s, ¬(c = ch)) → splitAtFirst ch s = none := by
  intro s
  induction s with
  | nil => intro _; rfl
  | cons a rest ih =>
    intro h
    rw [splitAtFirst, if_neg (h a (by simp)),
        ih (fun c hc => h c (by simp [hc]))]
    rfl

theorem splitAtFirst_append_first (ch : Char) (post : List Char) :
    ∀ pre : List Char, (∀ c ∈ pre, ¬(c = ch)) →
      splitAtFirst ch (pre ++ ch :: post) = some (pre, post) := by
  intro pre
  induction pre with
  | nil =>
    intro _
    rw [List.nil_append, splitAtFirst, if_pos rfl]
  | cons a as ih =>
    intro h
    rw [List.cons_append, splitAtFirst, if_neg (h a (by simp)),
        ih (fun c hc => h c (by simp [hc]))]
    rfl

theorem splitOnAmpAux_no_amp :
    ∀ (s acc : List Char), (∀ c ∈ s, ¬(c = '&')) →
      splitOnAmpAux acc s = [acc ++ s] := by
  intro s
  induction s with
  | nil => intro acc _; simp [splitOnAmpAux]
  | cons c rest ih =>
    intro acc h
    rw [splitOnAmpAux, if_neg (h c (by simp)),
        ih (acc ++ [c]) (fun d hd => h d (by simp [hd]))]
    simp

theorem parseQueryPairs_single (k v : List Char) (hk : k ≠ [])
    (hkc : ∀ c ∈ k, qChar c) (hvc : ∀ c ∈ v, qChar c) :
    parseQueryPairs (k ++ '=' :: v) = [(k, v)] := by
  have hqne : k ++ '=' :: v ≠ [] := by simp
  have hnoamp : ∀ c ∈ k ++ '=' :: v, ¬(c = '&') := by
    intro c hc
    rcases List.mem_append.mp hc with hck | hcv
    · exact ne_of_classes (hkc c hck) (by decide)
    · rcases List.mem_cons.mp hcv with rfl | hcv2
      · decide
      · exact ne_of_classes (hvc c hcv2) (by decide)
  have hnoeq : ∀ c ∈ k, ¬(c = '=') := fun c hc =>
    ne_of_classes (hkc c hc) (by decide)
  rw [parseQueryPairs, if_neg hqne, splitOnAmpAux_no_amp _ [] hnoamp,
      List.nil_append, List.filterMap_cons,
      splitAtFirst_append_first '=' v k hnoeq]
  simp [hk]

theorem queryEncodeParse_canonical (q : List Char)
    (hq : q = [] ∨ ∃ k v, k ≠ [] ∧ (∀ c ∈ k, qChar c) ∧ (∀ c ∈ v, qChar c)
      ∧ q = k ++ '=' :: v) :
    queryEncodeParse q = q := by
  rcases hq with rfl | ⟨k, v, hk, hkc, hvc, rfl⟩
  · rfl
  · rw [queryEncodeParse, parseQueryPairs_single k v hk hkc hvc]
    rfl

theorem cutQuery_canonical (body q : List Char)
    (hbody : ∀ c ∈ body, ¬(c = '?'))
    (hq : q = [] ∨ ∃ k v, k ≠ [] ∧ (∀ c ∈ k, qChar c) ∧ (∀ c ∈ v, qChar c)
      ∧ q = k ++ '=' :: v) :
    cutQuery (body
      ++ (if q ≠ [] ∧ ¬(['?'].isPrefixOf q) then ['?'] else []) ++ q)
      = (body, q) := by
  rcases hq with rfl | ⟨k, v, hk, hkc, hvc, rfl⟩
  · rw [if_neg (by simp)]
    rw [cutQuery, List.append_nil, List.append_nil,
        splitAtFirst_of_not_mem '?' body hbody]
  · have hqm : (if k ++ '=' :: v ≠ [] ∧ ¬(['?'].isPrefixOf (k ++ '=' :: v))
        then ['?'] else []) = ['?'] := by
      rw [if_pos]
      refine ⟨by simp, ?_⟩
      cases k with
      | nil => exact absurd rfl hk
      | cons kc krest =>
        have hkc1 : qChar kc := hkc kc (by simp)
        have hne : ¬(kc = '?') := ne_of_classes hkc1 (by decide)
        simp only [List.cons_append, List.isPrefixOf]
        intro hcontra
        rw [Bool.and_eq_true] at hcontra
        exact hne (beq_iff_eq.mp hcontra.1).symm
    rw [hqm]
    rw [show body ++ ['?'] ++ (k ++ '=' :: v) = body ++ '?' :: (k ++ '=' :: v) by
      simp]
    rw [cutQuery, splitAtFirst_append_first '?' (k ++ '=' :: v) body hbody]

theorem uriFromString_uriString (sch host path q : List Char)
    (h : CanonicalParts sch host path q) :
    uriFromString (uriString ⟨sch, host, path, q⟩) = ⟨sch, host, path, q⟩ := by
  obtain ⟨hs1, hs2, hh, hp, hner, hroot, hq⟩ := h
  have hqq := hq
  have hpne : ∀ c ∈ path, ¬(c = '?') := fun c hc =>
    ne_of_classes (hp c hc) (by decide)
  have hhne : ∀ c ∈ host, ¬(c = '?') := fun c hc =>
    ne_of_classes (hh c hc) (by decide)
  have hhslash : ∀ c ∈ host, ¬(c = '/') := fun c hc =>
    ne_of_classes (hh c hc) (by decide)
  by_cases hhost : host = []
  · -- no authority: the string is scheme, colon, path, optional query
    subst hhost
    have hstring : uriString ⟨sch, [], path, q⟩
        = sch ++ ':' :: (path
          ++ (if q ≠ [] ∧ ¬(['?'].isPrefixOf q) then ['?'] else []) ++ q) := by
      rw [uriString,
          if_pos (show (⟨sch, [], path, q⟩ : URI).hostname = [] from rfl),
          if_neg (show ¬((⟨sch, [], path, q⟩ : URI).hostname ≠ []
            ∧ (⟨sch, [], path, q⟩ : URI).path ≠ []
            ∧ ¬(['/'].isPrefixOf (⟨sch, [], path, q⟩ : URI).path) = true)
            from by simp)]
      simp [List.append_assoc]
    rw [uriFromString, hstring, parseURL, getScheme_canonical sch _ hs2]
    rw [show path ++ (if q ≠ [] ∧ ¬(['?'].isPrefixOf q) then ['?'] else []) ++ q
          = path ++ ((if q ≠ [] ∧ ¬(['?'].isPrefixOf q) then ['?'] else []) ++ q)
        from by simp]
    rw [show (sch, path
          ++ ((if q ≠ [] ∧ ¬(['?'].isPrefixOf q) then ['?'] else []) ++ q)).2
        = path ++ (if q ≠ [] ∧ ¬(['?'].isPrefixOf q) then ['?'] else []) ++ q
      from by simp]
    rw [cutQuery_canonical path q hpne hq]
    cases path with
    | nil =>
      simp [List.isPrefixOf, uriFromURL, hs1, queryEncodeParse_canonical q hqq]
    | cons c p =>
      by_cases hc : c = '/'
      · subst hc
        have hne2 : ¬(['/', '/'].isPrefixOf ('/' :: p) = true) := by
          simpa using hner rfl
        have hpref1 : (['/'].isPrefixOf ('/' :: p)) = true := by
          simp [List.isPrefixOf]
        simp [hne2, hpref1, uriFromURL, hs1, queryEncodeParse_canonical q hqq]
      · have hc2 : ¬('/' = c) := fun h2 => hc h2.symm
        simp [List.isPrefixOf, hc2, uriFromURL, hs1,
          queryEncodeParse_canonical q hqq]
  · -- authority present: the string is scheme, colon, two slashes, host, path
    have hstring : uriString ⟨sch, host, path, q⟩
        = sch ++ ':' :: ('/' :: '/' :: (host ++ path)
          ++ (if q ≠ [] ∧ ¬(['?'].isPrefixOf q) then ['?'] else []) ++ q) := by
      rw [uriString,
          if_neg (show ¬((⟨sch, host, path, q⟩ : URI).hostname = []) from hhost),
          if_neg (show ¬((⟨sch, host, path, q⟩ : URI).hostname ≠ []
            ∧ (⟨sch, host, path, q⟩ : URI).path ≠ []
            ∧ ¬(['/'].isPrefixOf (⟨sch, host, path, q⟩ : URI).path) = true)
            from by
              rcases hroot hhost with hpe | hpre
              · simp [hpe]
              · simp [hpre])]
      simp [List.append_assoc]
    have hbody : ∀ c ∈ '/' :: '/' :: (host ++ path), ¬(c = '?') := by
      intro c hc
      rcases List.mem_cons.mp hc with rfl | hc2
      · decide
      · rcases List.mem_cons.mp hc2 with rfl | hc3
        · decide
        · rcases List.mem_append.mp hc3 with hch | hcp
          · exact hhne c hch
          · exact hpne c hcp
    rw [uriFromString, hstring, parseURL, getScheme_canonical sch _ hs2]
    rw [show ('/' : Char) :: '/' :: (host ++ path)
          ++ (if q ≠ [] ∧ ¬(['?'].isPrefixOf q) then ['?'] else []) ++ q
        = '/' :: '/' :: (host ++ path)
          ++ ((if q ≠ [] ∧ ¬(['?'].isPrefixOf q) then ['?'] else []) ++ q)
      from by simp]
    rw [show (sch, ('/' : Char) :: '/' :: (host ++ path)
          ++ ((if q ≠ [] ∧ ¬(['?'].isPrefixOf q) then ['?'] else []) ++ q)).2
        = ('/' :: '/' :: (host ++ path))
          ++ (if q ≠ [] ∧ ¬(['?'].isPrefixOf q) then ['?'] else []) ++ q
      from by simp]
    rw [cutQuery_canonical ('/' :: '/' :: (host ++ path)) q hbody hq]
    have hpref2 : (['/', '/'].isPrefixOf
        ((('/' : Char) :: '/' :: (host ++ path), q).1)) = true := by
      simp [List.isPrefixOf]
    rcases hroot hhost with hpe | hpre
    · subst hpe
      have hauth : splitAuthority host = (host, []) := by
        rw [splitAuthority, splitAtFirst_of_not_mem '/' host hhslash]
      simp [hpref2, hauth, uriFromURL, hs1, queryEncodeParse_canonical q hqq]
    · obtain ⟨p, rfl⟩ : ∃ p, path = '/' :: p := by
        cases path with
        | nil => simp [List.isPrefixOf] at hpre
        | cons c p =>
          simp only [List.isPrefixOf, Bool.and_eq_true, beq_iff_eq] at hpre
          exact ⟨p, by rw [hpre.1]⟩
      have hauth : splitAuthority (host ++ '/' :: p) = (host, '/' :: p) := by
        rw [splitAuthority, splitAtFirst_append_first '/' p host hhslash]
      simp [hpref2, hauth, uriFromURL, hs1, queryEncodeParse_canonical q hqq]

/-- C8: For every URI string s in the modelled canonical form (nonempty
lowercase-ASCII scheme, optional `//`-delimited hostname, escape-free path
that is rooted or empty when an authority is present, and an empty query or a
single escape-free `key=value` query), parsing with `URI.FromString` and
re-stringifying with `URI.String` reproduces s exactly:
`uriString (uriFromString s) = s`. -/
theorem uri_canonical_roundtrip (s : List Char) (h : CanonicalURIString s) :
    uriString (uriFromString s) = s := by
  obtain ⟨sch, host, path, q, hc, rfl⟩ := h
  rw [uriFromString_uriString sch host path q hc]

theorem uri_canonical_roundtrip_witness :
    CanonicalURIString ("file://server/share/file.txt".toList)
      ∧ uriString (uriFromString ("file://server/share/file.txt".toList))
        = "file://server/share/file.txt".toList := by
  have hc : CanonicalParts ("file".toList) ("server".toList)
      ("/share/file.txt".toList) [] :=
    ⟨by decide, by decide, by decide, by decide, by decide, by decide,
      Or.inl rfl⟩
  have hs : "file://server/share/file.txt".toList
      = uriString ⟨"file".toList, "server".toList, "/share/file.txt".toList,
          []⟩ := by decide
  exact ⟨⟨_, _, _, _, hc, hs⟩,
    uri_canonical_roundtrip _ ⟨_, _, _, _, hc, hs⟩⟩

end Uniquefile
